import Mathlib

/-!
go-simple-load-balancer: pool rotation and per-request retry/failover.

A shallow embedding of `pool.go` and of the request path of `main.go`.

* A `*Backend` is represented by its position in `ServerPool.backends`: `main`
  allocates one `Backend` per configured URL and appends its pointer, so the
  slice holds pairwise distinct pointers and never changes after start-up.
* `current` is a `uint64`; the only arithmetic on it is `atomic.AddUint64`,
  modelled with an explicit `% 2 ^ 64`.  Slice lengths and indices are Go
  `int`s below `2 ^ 63`, so the `int`/`uint64` conversions of `len(s.backends)`
  and `idx` preserve the value and are not written.
* A run-time panic (integer division by zero in `nextIndex`, index out of
  range) is the outer `none` of an `Option` result.
* Execution is sequential: one request at a time, no health check interleaved.
-/

namespace LoadBalancer

/-! ## pool.go -/

/-- A backend: `URL` stands for `b.URL.String()`, `Alive` for the flag guarded by
`mux`.  The reverse proxy handle is immutable and is identified with the backend
itself. -/
structure Backend where
  URL : String
  Alive : Bool
deriving DecidableEq, Repr

/-- `func (b *Backend) setAlive(alive bool)`. -/
def Backend.setAlive (b : Backend) (alive : Bool) : Backend :=
  { b with Alive := alive }

/-- `func (b *Backend) isAlive() (alive bool)`. -/
def Backend.isAlive (b : Backend) : Bool :=
  b.Alive

/-- `type ServerPool struct { backends []*Backend; current uint64 }`. -/
structure ServerPool where
  backends : List Backend
  current : Nat
deriving DecidableEq, Repr

/-- `func (s *ServerPool) addBackend(b *Backend)`. -/
def ServerPool.addBackend (s : ServerPool) (b : Backend) : ServerPool :=
  { s with backends := s.backends ++ [b] }

/-- `func (s *ServerPool) nextIndex() int`:
`atomic.AddUint64(&s.current, 1) % uint64(len(s.backends))`.
The result is the index together with the pool holding the incremented cursor;
`none` is the division-by-zero panic of an empty pool. -/
def ServerPool.nextIndex (s : ServerPool) : Option (Nat × ServerPool) :=
  let c := (s.current + 1) % 2 ^ 64
  if s.backends.length = 0 then none
  else some (c % s.backends.length, { s with current := c })

/-- What one `getNextPeer` call yields: the returned pointer (`none` is `nil`),
the pool afterwards, and the indices on which `isAlive` was called, in order. -/
structure PeerResult where
  peer : Option Nat
  pool : ServerPool
  probes : List Nat
deriving DecidableEq, Repr

/-- The `for i := next; i < l; i++` loop of `getNextPeer`.  The first numeric
argument is `l - i`, the number of iterations left, so `i < l` is `l - i ≠ 0`. -/
def ServerPool.getNextPeerLoop (s : ServerPool) (next : Nat) : Nat → Nat → Option PeerResult
  | 0, _ => some ⟨none, s, []⟩
  | n + 1, i =>
    let idx := i % s.backends.length
    match s.backends[idx]? with
    | none => none
    | some b =>
      if b.isAlive then
        some ⟨some idx, if i ≠ next then { s with current := idx } else s, [idx]⟩
      else
        (ServerPool.getNextPeerLoop s next n (i + 1)).map
          fun r => { r with probes := idx :: r.probes }

/-- `func (s *ServerPool) getNextPeer() *Backend`. -/
def ServerPool.getNextPeer (s : ServerPool) : Option PeerResult :=
  match s.nextIndex with
  | none => none
  | some (next, s1) =>
    let l := s1.backends.length + next
    s1.getNextPeerLoop next (l - next) next

/-- `func (s *ServerPool) markBackendStatus(u *url.URL, alive bool)` on the
backend slice: the first backend whose URL string equals `u` gets the flag. -/
def markBackendStatusList (u : String) (alive : Bool) : List Backend → List Backend
  | [] => []
  | b :: bs =>
    if b.URL = u then b.setAlive alive :: bs
    else b :: markBackendStatusList u alive bs

/-- `func (s *ServerPool) markBackendStatus(u *url.URL, alive bool)`. -/
def ServerPool.markBackendStatus (s : ServerPool) (u : String) (alive : Bool) : ServerPool :=
  { s with backends := markBackendStatusList u alive s.backends }

/-- `func (s *ServerPool) HealthCheck()`, with `isBackendAlive` given as a
reachability oracle on URL strings. -/
def ServerPool.HealthCheck (isBackendAlive : String → Bool) (s : ServerPool) : ServerPool :=
  { s with backends := s.backends.map fun b => b.setAlive (isBackendAlive b.URL) }

/-- Repeated `getNextPeer` calls: the returned pointers in call order and the
pool after the last call. -/
def ServerPool.getNextPeerTimes : Nat → ServerPool → Option (List (Option Nat) × ServerPool)
  | 0, s => some ([], s)
  | n + 1, s =>
    match s.getNextPeer with
    | none => none
    | some r =>
      match ServerPool.getNextPeerTimes n r.pool with
      | none => none
      | some (ps, s2) => some (r.peer :: ps, s2)

/-- Every backend of the pool is alive. -/
def ServerPool.allAlive (s : ServerPool) : Bool :=
  s.backends.all fun b => b.isAlive

/-- No backend of the pool is alive. -/
def ServerPool.noneAlive (s : ServerPool) : Bool :=
  s.backends.all fun b => !b.isAlive

/-- The backend at position `i` exists and is alive. -/
def ServerPool.aliveAt (s : ServerPool) (i : Nat) : Bool :=
  match s.backends[i]? with
  | some b => b.isAlive
  | none => false

/-- Number of alive backends in the pool. -/
def ServerPool.aliveCount (s : ServerPool) : Nat :=
  s.backends.countP Backend.isAlive

/-! ## main.go: the request path -/

/-- The two request-scoped context values, keyed by `Attempts` and `Retry`;
`none` is an absent key.  The counters are written only by the error handler,
as the old value plus one, so they stay far below the `int` range. -/
structure Request where
  attempts : Option Nat
  retry : Option Nat
deriving DecidableEq, Repr

/-- `func getRetryFromContext(r *http.Request) int`. -/
def getRetryFromContext (r : Request) : Nat :=
  match r.retry with
  | some retry => retry
  | none => 0

/-- `func getAttemptsFromContext(r *http.Request) int`. -/
def getAttemptsFromContext (r : Request) : Nat :=
  match r.attempts with
  | some retry => retry
  | none => 0

/-- Observable actions of the request path, in program order. -/
inductive Event where
  | selected (peer : Nat)
  | forwarded (peer : Nat)
  | slept
  | marked (u : String) (alive : Bool)
  | unavailable
deriving DecidableEq, Repr

/-- Control points of one request: about to run `loadBalance(w, r)`, about to run
`ServeHTTP(w, r)` of a backend's proxy, the two terminal responses, and a
run-time panic. -/
inductive Phase where
  | dispatch (r : Request)
  | forward (peer : Nat) (r : Request)
  | served (peer : Nat)
  | unavailable
  | panicked
deriving DecidableEq, Repr

/-- `func loadBalance(w http.ResponseWriter, r *http.Request)`, up to the point
where it either answers 503 or hands the request to `peer.ReverseProxy`. -/
def loadBalance (s : ServerPool) (r : Request) : Option (Phase × ServerPool × List Event) :=
  let attempts := getAttemptsFromContext r
  if 3 < attempts then
    some (Phase.unavailable, s, [Event.unavailable])
  else
    match s.getNextPeer with
    | none => none
    | some res =>
      match res.peer with
      | some peer => some (Phase.forward peer r, res.pool, [Event.selected peer])
      | none => some (Phase.unavailable, res.pool, [Event.unavailable])

/-- The `proxy.ErrorHandler` closure that `main` installs for the backend at
position `proxy` with URL `backendUrl`, up to its nested `proxy.ServeHTTP` or
`loadBalance` call. -/
def errorHandler (backendUrl : String) (proxy : Nat) (s : ServerPool) (r : Request) :
    Phase × ServerPool × List Event :=
  let retries := getRetryFromContext r
  if retries < 3 then
    (Phase.forward proxy { r with retry := some (retries + 1) }, s, [Event.slept])
  else
    let s1 := s.markBackendStatus backendUrl false
    let attempts := getAttemptsFromContext r
    (Phase.dispatch { r with attempts := some (attempts + 1) }, s1,
      [Event.marked backendUrl false])

/-- State of one request in flight: the shared pool, the control point, the
actions so far, and how many forwards this request has made. -/
structure Machine where
  pool : ServerPool
  phase : Phase
  trace : List Event
  forwards : Nat
deriving DecidableEq, Repr

/-- One control transfer.  `fwd n` tells whether the `n`-th forward of this
request succeeds; a failed forward enters the backend's error handler. -/
def step (fwd : Nat → Bool) (m : Machine) : Machine :=
  match m.phase with
  | Phase.dispatch r =>
    match loadBalance m.pool r with
    | none => { m with phase := Phase.panicked }
    | some (p, s, ev) => { m with pool := s, phase := p, trace := m.trace ++ ev }
  | Phase.forward peer r =>
    match m.pool.backends[peer]? with
    | none => { m with phase := Phase.panicked }
    | some b =>
      if fwd m.forwards then
        { m with phase := Phase.served peer, trace := m.trace ++ [Event.forwarded peer],
                 forwards := m.forwards + 1 }
      else
        match errorHandler b.URL peer m.pool r with
        | (p, s, ev) =>
          { pool := s, phase := p, trace := m.trace ++ Event.forwarded peer :: ev,
            forwards := m.forwards + 1 }
  | _ => m

/-- Iterated `step`. -/
def run (fwd : Nat → Bool) : Nat → Machine → Machine
  | 0, m => m
  | n + 1, m => run fwd n (step fwd m)

/-- An incoming request as the HTTP server delivers it: no counters in scope. -/
def Machine.start (s : ServerPool) : Machine :=
  ⟨s, Phase.dispatch ⟨none, none⟩, [], 0⟩

/-- The request has been answered or its handler has crashed. -/
def Phase.isTerminal : Phase → Bool
  | Phase.dispatch _ => false
  | Phase.forward _ _ => false
  | _ => true

/-- Number of dispatches that selected a backend. -/
def selections (t : List Event) : Nat :=
  t.countP fun e => match e with
    | Event.selected _ => true
    | _ => false

/-- Number of `markBackendStatus` calls. -/
def marks (t : List Event) : Nat :=
  t.countP fun e => match e with
    | Event.marked _ _ => true
    | _ => false

/-- Number of local retries (each is preceded by the fixed delay). -/
def localRetries (t : List Event) : Nat :=
  t.countP fun e => match e with
    | Event.slept => true
    | _ => false

/-- Number of forwarding attempts. -/
def forwardings (t : List Event) : Nat :=
  t.countP fun e => match e with
    | Event.forwarded _ => true
    | _ => false

/-- An upper bound on the number of control transfers still ahead: each
failover leaves two fewer, each local retry one fewer. -/
def Phase.budget : Phase → Nat
  | Phase.dispatch r =>
    if 3 < getAttemptsFromContext r then 1
    else 2 * (4 - getAttemptsFromContext r) + (3 - getRetryFromContext r) + 1
  | Phase.forward _ r =>
    if 3 < getAttemptsFromContext r then (3 - getRetryFromContext r) + 3
    else 2 * (4 - getAttemptsFromContext r) + (3 - getRetryFromContext r)
  | _ => 0

/-- The local retries made so far plus those the retry counter still allows
stay within `base + 3`. -/
def retryBound (base : Nat) (m : Machine) : Prop :=
  match m.phase with
  | Phase.dispatch r => localRetries m.trace + (3 - getRetryFromContext r) ≤ base + 3
  | Phase.forward _ r => localRetries m.trace + (3 - getRetryFromContext r) ≤ base + 3
  | _ => localRetries m.trace ≤ base + 3

/-- Every forwarding attempt fails. -/
def allFail : Nat → Bool := fun _ => false

/-- The first `k` forwarding attempts fail, every later one succeeds. -/
def failFirst (k : Nat) : Nat → Bool := fun n => decide (k ≤ n)

/-- The `for _, b := range s.backends` loop of `HealthCheck`: the backends with
their new flags, and one record per iteration holding the URL handed to
`isBackendAlive` and the status written to the log. -/
def healthCheckLoop (isBackendAlive : String → Bool) :
    List Backend → List Backend × List (String × String)
  | [] => ([], [])
  | b :: bs =>
    let alive := isBackendAlive b.URL
    let status := if !alive then "down" else "up"
    let rest := healthCheckLoop isBackendAlive bs
    (b.setAlive alive :: rest.1, (b.URL, status) :: rest.2)

/-- `func (s *ServerPool) HealthCheck()` together with its per-iteration records. -/
def ServerPool.HealthCheckLogged (isBackendAlive : String → Bool) (s : ServerPool) :
    ServerPool × List (String × String) :=
  ({ s with backends := (healthCheckLoop isBackendAlive s.backends).1 },
    (healthCheckLoop isBackendAlive s.backends).2)

/-- None of the next `n` `getNextPeer` calls increments the cursor past
`2 ^ 64 - 1`. -/
def ServerPool.noWrapTimes : Nat → ServerPool → Bool
  | 0, _ => true
  | n + 1, s =>
    decide (s.current + 1 < 2 ^ 64) &&
      match s.getNextPeer with
      | none => true
      | some r => ServerPool.noWrapTimes n r.pool

/-- Actions of a request's first selection when every forward fails: the forward,
three delayed repetitions, and the dead-mark. -/
def firstRound (peer : Nat) (u : String) : List Event :=
  [Event.selected peer, Event.forwarded peer, Event.slept, Event.forwarded peer,
    Event.slept, Event.forwarded peer, Event.slept, Event.forwarded peer,
    Event.marked u false]

/-- Actions of a later selection when every forward fails: a single forward and
the dead-mark. -/
def laterRound (sel : Nat × String) : List Event :=
  [Event.selected sel.1, Event.forwarded sel.1, Event.marked sel.2 false]

/-- Actions of a run of later selections. -/
def laterRounds : List (Nat × String) → List Event
  | [] => []
  | sel :: rest => laterRound sel ++ laterRounds rest

/-- Position `b` is the first alive position after `a` in circular order, both
counted without reduction modulo the pool size: `a < b ≤ a + N`, the backend at
`b % N` is alive and none strictly between is. -/
def ServerPool.nextAliveAfter (s : ServerPool) (a b : Nat) : Prop :=
  a < b ∧ b ≤ a + s.backends.length ∧ s.aliveAt (b % s.backends.length) = true ∧
    ∀ x, a < x → x < b → s.aliveAt (x % s.backends.length) = false

/-! ## The scan of `getNextPeer` -/

theorem aliveAt_of_getElem? {s : ServerPool} {i : Nat} {b : Backend}
    (h : s.backends[i]? = some b) : s.aliveAt i = b.isAlive := by
  simp [ServerPool.aliveAt, h]

theorem aliveAt_lt {s : ServerPool} {i : Nat} (h : s.aliveAt i = true) :
    i < s.backends.length := by
  by_contra hlt
  have : s.backends[i]? = none := List.getElem?_eq_none (Nat.le_of_not_lt hlt)
  simp [ServerPool.aliveAt, this] at h

theorem probes_succ (N i k : Nat) :
    (List.range (k + 1 + 1)).map (fun j => (i + j) % N)
      = i % N :: (List.range (k + 1)).map (fun j => (i + 1 + j) % N) := by
  rw [List.range_succ_eq_map, List.map_cons, List.map_map]
  simp only [Nat.add_zero, List.cons.injEq, true_and]
  apply List.map_congr_left
  intro j _
  simp only [Function.comp, Nat.succ_eq_add_one]
  congr 1
  omega

theorem probes_succ_zero (N i k : Nat) :
    (List.range (k + 1)).map (fun j => (i + j) % N)
      = i % N :: (List.range k).map (fun j => (i + 1 + j) % N) := by
  cases k with
  | zero => simp [List.range_succ]
  | succ k => exact probes_succ N i k

/-- The loop stops at the first alive backend it meets. -/
theorem getNextPeerLoop_found (s : ServerPool) (next : Nat) (hN : 0 < s.backends.length) :
    ∀ (k n i : Nat), k < n →
      s.aliveAt ((i + k) % s.backends.length) = true →
      (∀ j, j < k → s.aliveAt ((i + j) % s.backends.length) = false) →
      s.getNextPeerLoop next n i
        = some ⟨some ((i + k) % s.backends.length),
            if i + k ≠ next then { s with current := (i + k) % s.backends.length } else s,
            (List.range (k + 1)).map fun j => (i + j) % s.backends.length⟩ := by
  intro k
  induction k with
  | zero =>
    intro n i hn ha _
    obtain ⟨n, rfl⟩ : ∃ m, n = m + 1 := ⟨n - 1, by omega⟩
    have hlt : i % s.backends.length < s.backends.length := Nat.mod_lt _ hN
    have hget : s.backends[i % s.backends.length]? = some (s.backends[i % s.backends.length]) :=
      List.getElem?_eq_getElem hlt
    have hb : (s.backends[i % s.backends.length]).isAlive = true := by
      rw [← aliveAt_of_getElem? hget]; simpa using ha
    simp [ServerPool.getNextPeerLoop, hget, hb, List.range_succ]
  | succ k ih =>
    intro n i hn ha hdead
    obtain ⟨n, rfl⟩ : ∃ m, n = m + 1 := ⟨n - 1, by omega⟩
    have hlt : i % s.backends.length < s.backends.length := Nat.mod_lt _ hN
    have hget : s.backends[i % s.backends.length]? = some (s.backends[i % s.backends.length]) :=
      List.getElem?_eq_getElem hlt
    have hb : (s.backends[i % s.backends.length]).isAlive = false := by
      rw [← aliveAt_of_getElem? hget]; simpa using hdead 0 (by omega)
    have hrec := ih n (i + 1) (by omega)
      (by rw [show i + 1 + k = i + (k + 1) by omega]; exact ha)
      (fun j hj => by
        rw [show i + 1 + j = i + (j + 1) by omega]; exact hdead (j + 1) (by omega))
    rw [ServerPool.getNextPeerLoop]
    simp only [hget, hb, hrec, Option.map_some', Bool.false_eq_true, if_false]
    rw [probes_succ, show i + 1 + k = i + (k + 1) by omega]

/-- With no alive backend among the next `n` positions the loop runs to its end. -/
theorem getNextPeerLoop_none (s : ServerPool) (next : Nat) (hN : 0 < s.backends.length) :
    ∀ (n i : Nat),
      (∀ j, j < n → s.aliveAt ((i + j) % s.backends.length) = false) →
      s.getNextPeerLoop next n i
        = some ⟨none, s, (List.range n).map fun j => (i + j) % s.backends.length⟩ := by
  intro n
  induction n with
  | zero => intro i _; simp [ServerPool.getNextPeerLoop]
  | succ n ih =>
    intro i hdead
    have hlt : i % s.backends.length < s.backends.length := Nat.mod_lt _ hN
    have hget : s.backends[i % s.backends.length]? = some (s.backends[i % s.backends.length]) :=
      List.getElem?_eq_getElem hlt
    have hb : (s.backends[i % s.backends.length]).isAlive = false := by
      rw [← aliveAt_of_getElem? hget]; simpa using hdead 0 (by omega)
    have hrec := ih (i + 1) (fun j hj => by
        rw [show i + 1 + j = i + (j + 1) by omega]; exact hdead (j + 1) (by omega))
    rw [ServerPool.getNextPeerLoop]
    simp only [hget, hb, hrec, Option.map_some', Bool.false_eq_true, if_false]
    rw [probes_succ_zero]

/-- The cursor value `atomic.AddUint64` leaves behind. -/
theorem nextIndex_eq (s : ServerPool) (hN : 0 < s.backends.length) :
    s.nextIndex
      = some (((s.current + 1) % 2 ^ 64) % s.backends.length,
          { s with current := (s.current + 1) % 2 ^ 64 }) := by
  have h : ¬ s.backends.length = 0 := by omega
  simp [ServerPool.nextIndex, h]

theorem getNextPeer_found (s : ServerPool) (hN : 0 < s.backends.length) (k : Nat)
    (hk : k < s.backends.length)
    (ha : s.aliveAt ((((s.current + 1) % 2 ^ 64) % s.backends.length + k)
            % s.backends.length) = true)
    (hdead : ∀ j, j < k →
      s.aliveAt ((((s.current + 1) % 2 ^ 64) % s.backends.length + j)
            % s.backends.length) = false) :
    s.getNextPeer
      = some ⟨some ((((s.current + 1) % 2 ^ 64) % s.backends.length + k) % s.backends.length),
          if k ≠ 0 then
            { s with current :=
                (((s.current + 1) % 2 ^ 64) % s.backends.length + k) % s.backends.length }
          else { s with current := (s.current + 1) % 2 ^ 64 },
          (List.range (k + 1)).map fun j =>
            (((s.current + 1) % 2 ^ 64) % s.backends.length + j) % s.backends.length⟩ := by
  have hloop := getNextPeerLoop_found { s with current := (s.current + 1) % 2 ^ 64 }
    (((s.current + 1) % 2 ^ 64) % s.backends.length) hN k s.backends.length
    (((s.current + 1) % 2 ^ 64) % s.backends.length) hk ha hdead
  simp only [ServerPool.getNextPeer, nextIndex_eq s hN, Nat.add_sub_cancel]
  rw [hloop]
  by_cases h0 : k = 0
  · simp [h0]
  · have : ((s.current + 1) % 2 ^ 64) % s.backends.length + k
        ≠ ((s.current + 1) % 2 ^ 64) % s.backends.length := by omega
    simp [h0, this]

theorem getNextPeer_none (s : ServerPool) (hN : 0 < s.backends.length)
    (hdead : ∀ j, j < s.backends.length →
      s.aliveAt ((((s.current + 1) % 2 ^ 64) % s.backends.length + j)
            % s.backends.length) = false) :
    s.getNextPeer
      = some ⟨none, { s with current := (s.current + 1) % 2 ^ 64 },
          (List.range s.backends.length).map fun j =>
            (((s.current + 1) % 2 ^ 64) % s.backends.length + j) % s.backends.length⟩ := by
  have hloop := getNextPeerLoop_none { s with current := (s.current + 1) % 2 ^ 64 }
    (((s.current + 1) % 2 ^ 64) % s.backends.length) hN s.backends.length
    (((s.current + 1) % 2 ^ 64) % s.backends.length) hdead
  simp only [ServerPool.getNextPeer, nextIndex_eq s hN, Nat.add_sub_cancel]
  rw [hloop]

/-- Every position is reached from every start within one lap. -/
theorem offset_reaches (N start i : Nat) (hi : i < N) :
    (start + (i + (N - start % N)) % N) % N = i := by
  have hr : start % N < N := Nat.mod_lt _ (by omega)
  rw [Nat.add_mod, Nat.mod_mod]
  have h1 : (start % N + (i + (N - start % N)) % N) % N
      = (start % N + (i + (N - start % N))) % N := by
    conv_rhs => rw [Nat.add_mod, Nat.mod_mod]
  rw [h1, show start % N + (i + (N - start % N)) = i + N by omega, Nat.add_mod_right,
    Nat.mod_eq_of_lt hi]

/-- If some backend is alive, a first alive offset exists from any start. -/
theorem exists_first_alive (s : ServerPool) (start : Nat)
    (h : ∃ i, s.aliveAt i = true) :
    ∃ k, k < s.backends.length ∧
      s.aliveAt ((start + k) % s.backends.length) = true ∧
      ∀ j, j < k → s.aliveAt ((start + j) % s.backends.length) = false := by
  obtain ⟨i, hi⟩ := h
  have hlt := aliveAt_lt hi
  have hex : ∃ k, k < s.backends.length ∧
      s.aliveAt ((start + k) % s.backends.length) = true :=
    ⟨(i + (s.backends.length - start % s.backends.length)) % s.backends.length,
      Nat.mod_lt _ (by omega), by rw [offset_reaches _ _ _ hlt]; exact hi⟩
  refine ⟨Nat.find hex, (Nat.find_spec hex).1, (Nat.find_spec hex).2, ?_⟩
  intro j hj
  have hmin := Nat.find_min hex hj
  have hjN : j < s.backends.length := Nat.lt_trans hj (Nat.find_spec hex).1
  cases hv : s.aliveAt ((start + j) % s.backends.length) with
  | false => rfl
  | true => exact absurd ⟨hjN, hv⟩ hmin

/-- Summary of one call on a non-empty pool: it returns, keeps the backends,
and yields an alive backend when there is one and `nil` otherwise. -/
theorem getNextPeer_spec (s : ServerPool) (hN : 0 < s.backends.length) :
    ∃ r, s.getNextPeer = some r ∧ r.pool.backends = s.backends ∧
      ((∃ idx, r.peer = some idx ∧ s.aliveAt idx = true) ∨
       (r.peer = none ∧ ∀ i, s.aliveAt i = false)) := by
  by_cases h : ∃ i, s.aliveAt i = true
  · obtain ⟨k, hk, ha, hdead⟩ :=
      exists_first_alive s (((s.current + 1) % 2 ^ 64) % s.backends.length) h
    refine ⟨_, getNextPeer_found s hN k hk ha hdead, ?_, Or.inl ⟨_, rfl, ha⟩⟩
    by_cases h0 : k = 0 <;> simp [h0]
  · have hall : ∀ i, s.aliveAt i = false := by
      intro i
      cases hv : s.aliveAt i with
      | false => rfl
      | true => exact absurd ⟨i, hv⟩ h
    exact ⟨_, getNextPeer_none s hN (fun j _ => hall _), rfl, Or.inr ⟨rfl, hall⟩⟩

theorem aliveAt_of_allAlive {s : ServerPool} (h : s.allAlive = true) {i : Nat}
    (hi : i < s.backends.length) : s.aliveAt i = true := by
  have hget : s.backends[i]? = some (s.backends[i]) := List.getElem?_eq_getElem hi
  rw [aliveAt_of_getElem? hget]
  simp only [ServerPool.allAlive, List.all_eq_true] at h
  exact h _ (List.getElem_mem hi)

theorem aliveAt_of_noneAlive {s : ServerPool} (h : s.noneAlive = true) (i : Nat) :
    s.aliveAt i = false := by
  cases hget : s.backends[i]? with
  | none => simp [ServerPool.aliveAt, hget]
  | some b =>
    rw [aliveAt_of_getElem? hget]
    simp only [ServerPool.noneAlive, List.all_eq_true] at h
    simpa using h b (List.getElem?_mem hget)

/-- With every backend alive the first probe succeeds and the cursor is only
incremented. -/
theorem getNextPeer_allAlive (s : ServerPool) (hN : 0 < s.backends.length)
    (h : s.allAlive = true) :
    s.getNextPeer
      = some ⟨some (((s.current + 1) % 2 ^ 64) % s.backends.length),
          { s with current := (s.current + 1) % 2 ^ 64 },
          [((s.current + 1) % 2 ^ 64) % s.backends.length]⟩ := by
  have hf := getNextPeer_found s hN 0 hN
    (aliveAt_of_allAlive h (Nat.mod_lt _ hN)) (fun j hj => absurd hj (Nat.not_lt_zero j))
  simpa [List.range_succ] using hf

theorem getNextPeerTimes_allAlive :
    ∀ (n : Nat) (s : ServerPool), 0 < s.backends.length → s.allAlive = true →
      ∃ s2, s.getNextPeerTimes n
          = some ((List.range n).map fun k =>
              some (((s.current + 1 + k) % 2 ^ 64) % s.backends.length), s2)
        ∧ s2.backends = s.backends := by
  intro n
  induction n with
  | zero => intro s _ _; exact ⟨s, by simp [ServerPool.getNextPeerTimes], rfl⟩
  | succ n ih =>
    intro s hN h
    obtain ⟨s2, hrec, hb⟩ := ih { s with current := (s.current + 1) % 2 ^ 64 } hN h
    refine ⟨s2, ?_, hb⟩
    rw [ServerPool.getNextPeerTimes, getNextPeer_allAlive s hN h]
    have htail : (List.range n).map
          (fun k => some ((((s.current + 1) % 2 ^ 64 + 1 + k) % 2 ^ 64) % s.backends.length))
        = (List.range n).map
          ((fun k => some (((s.current + 1 + k) % 2 ^ 64) % s.backends.length)) ∘ Nat.succ) := by
      apply List.map_congr_left
      intro k _
      simp only [Function.comp, Nat.succ_eq_add_one]
      congr 2
      omega
    simp only [hrec, List.range_succ_eq_map, List.map_cons, List.map_map, Nat.add_zero, htail]

theorem succ_mod_inj (N x y : Nat) (hx : x < N) (hy : y < N)
    (h : (x + 1) % N = (y + 1) % N) : x = y := by
  rcases Nat.lt_or_ge (x + 1) N with hx1 | hx1 <;>
    rcases Nat.lt_or_ge (y + 1) N with hy1 | hy1
  · rw [Nat.mod_eq_of_lt hx1, Nat.mod_eq_of_lt hy1] at h; omega
  · have hy2 : y + 1 = N := by omega
    rw [Nat.mod_eq_of_lt hx1, hy2, Nat.mod_self] at h; omega
  · have hx2 : x + 1 = N := by omega
    rw [Nat.mod_eq_of_lt hy1, hx2, Nat.mod_self] at h; omega
  · omega

theorem aliveAt_congr {s1 s2 : ServerPool} (h : s1.backends = s2.backends) (i : Nat) :
    s1.aliveAt i = s2.aliveAt i := by
  simp [ServerPool.aliveAt, h]

/-- In a list with exactly one alive backend, two alive positions coincide. -/
theorem alive_unique_of_countP :
    ∀ (l : List Backend), l.countP Backend.isAlive = 1 →
      ∀ (i j : Nat) (b c : Backend), l[i]? = some b → b.isAlive = true →
        l[j]? = some c → c.isAlive = true → i = j := by
  intro l
  induction l with
  | nil => intro h; simp at h
  | cons b0 l ih =>
    intro h i j b c hb hba hc hca
    rw [List.countP_cons] at h
    cases hb0 : b0.isAlive with
    | true =>
      have hz : l.countP Backend.isAlive = 0 := by simpa [hb0] using h
      have hdead : ∀ x ∈ l, ¬ x.isAlive = true := List.countP_eq_zero.mp hz
      cases i with
      | zero =>
        cases j with
        | zero => rfl
        | succ j =>
          rw [List.getElem?_cons_succ] at hc
          exact absurd hca (hdead c (List.getElem?_mem hc))
      | succ i =>
        rw [List.getElem?_cons_succ] at hb
        exact absurd hba (hdead b (List.getElem?_mem hb))
    | false =>
      have h1 : l.countP Backend.isAlive = 1 := by simpa [hb0] using h
      cases i with
      | zero =>
        rw [List.getElem?_cons_zero] at hb
        cases hb; rw [hb0] at hba; cases hba
      | succ i =>
        cases j with
        | zero =>
          rw [List.getElem?_cons_zero] at hc
          cases hc; rw [hb0] at hca; cases hca
        | succ j =>
          rw [List.getElem?_cons_succ] at hb hc
          rw [ih h1 i j b c hb hba hc hca]

theorem aliveAt_unique {s : ServerPool} (h1 : s.aliveCount = 1) {i j : Nat}
    (hi : s.aliveAt i = true) (hj : s.aliveAt j = true) : i = j := by
  have hli : i < s.backends.length := aliveAt_lt hi
  have hlj : j < s.backends.length := aliveAt_lt hj
  have hgi : s.backends[i]? = some (s.backends[i]) := List.getElem?_eq_getElem hli
  have hgj : s.backends[j]? = some (s.backends[j]) := List.getElem?_eq_getElem hlj
  rw [aliveAt_of_getElem? hgi] at hi
  rw [aliveAt_of_getElem? hgj] at hj
  exact alive_unique_of_countP s.backends h1 i j _ _ hgi hi hgj hj

/-- With a single alive backend, a call returns it and keeps the backends. -/
theorem getNextPeer_single (s : ServerPool) (a : Nat) (h1 : s.aliveCount = 1)
    (ha : s.aliveAt a = true) :
    ∃ r, s.getNextPeer = some r ∧ r.peer = some a ∧ r.pool.backends = s.backends := by
  have hN : 0 < s.backends.length := Nat.lt_of_le_of_lt (Nat.zero_le a) (aliveAt_lt ha)
  obtain ⟨r, hr, hb, hcase⟩ := getNextPeer_spec s hN
  refine ⟨r, hr, ?_, hb⟩
  rcases hcase with ⟨idx, hp, hidx⟩ | ⟨_, hall⟩
  · rw [hp, aliveAt_unique h1 hidx ha]
  · rw [hall a] at ha; cases ha

theorem getNextPeerTimes_single (a : Nat) :
    ∀ (n : Nat) (s : ServerPool), s.aliveCount = 1 → s.aliveAt a = true →
      ∃ s2, s.getNextPeerTimes n = some (List.replicate n (some a), s2)
        ∧ s2.backends = s.backends := by
  intro n
  induction n with
  | zero => intro s _ _; exact ⟨s, rfl, rfl⟩
  | succ n ih =>
    intro s h1 ha
    obtain ⟨r, hr, hp, hb⟩ := getNextPeer_single s a h1 ha
    have h1r : r.pool.aliveCount = 1 := by
      simpa [ServerPool.aliveCount, hb] using h1
    have har : r.pool.aliveAt a = true := by rw [aliveAt_congr hb]; exact ha
    obtain ⟨s2, hrec, hb2⟩ := ih r.pool h1r har
    refine ⟨s2, ?_, hb2.trans hb⟩
    rw [ServerPool.getNextPeerTimes, hr]
    simp only [hrec, hp, List.replicate_succ]

/-- With no alive backend in a non-empty pool, a call returns `nil`. -/
theorem getNextPeer_dead (s : ServerPool) (hN : 0 < s.backends.length)
    (h0 : s.noneAlive = true) :
    ∃ r, s.getNextPeer = some r ∧ r.peer = none ∧ r.pool.backends = s.backends := by
  obtain ⟨r, hr, hb, hcase⟩ := getNextPeer_spec s hN
  refine ⟨r, hr, ?_, hb⟩
  rcases hcase with ⟨idx, _, hidx⟩ | ⟨hp, _⟩
  · rw [aliveAt_of_noneAlive h0] at hidx; cases hidx
  · exact hp

theorem getNextPeerTimes_dead :
    ∀ (n : Nat) (s : ServerPool), 0 < s.backends.length → s.noneAlive = true →
      ∃ s2, s.getNextPeerTimes n = some (List.replicate n none, s2)
        ∧ s2.backends = s.backends := by
  intro n
  induction n with
  | zero => intro s _ _; exact ⟨s, rfl, rfl⟩
  | succ n ih =>
    intro s hN h0
    obtain ⟨r, hr, hp, hb⟩ := getNextPeer_dead s hN h0
    have hNr : 0 < r.pool.backends.length := by rw [hb]; exact hN
    have h0r : r.pool.noneAlive = true := by
      simpa [ServerPool.noneAlive, hb] using h0
    obtain ⟨s2, hrec, hb2⟩ := ih r.pool hNr h0r
    refine ⟨s2, ?_, hb2.trans hb⟩
    rw [ServerPool.getNextPeerTimes, hr]
    simp only [hrec, hp, List.replicate_succ]

/-! ## `markBackendStatus` -/

theorem markBackendStatusList_urls (u : String) (alive : Bool) :
    ∀ l : List Backend,
      (markBackendStatusList u alive l).map Backend.URL = l.map Backend.URL := by
  intro l
  induction l with
  | nil => rfl
  | cons c l ih =>
    by_cases hc : c.URL = u
    · simp [markBackendStatusList, hc, Backend.setAlive]
    · simp [markBackendStatusList, hc, ih]

/-- The flag lands on position `i` when no earlier backend has the same URL
string; every other position keeps its backend. -/
theorem markBackendStatusList_first (alive : Bool) :
    ∀ (l : List Backend) (i : Nat) (b : Backend), l[i]? = some b →
      (∀ j c, j < i → l[j]? = some c → c.URL ≠ b.URL) →
      (markBackendStatusList b.URL alive l)[i]? = some (b.setAlive alive) ∧
      ∀ k, k ≠ i → (markBackendStatusList b.URL alive l)[k]? = l[k]? := by
  intro l
  induction l with
  | nil => intro i b hb; simp at hb
  | cons c l ih =>
    intro i b hb hfirst
    cases i with
    | zero =>
      rw [List.getElem?_cons_zero] at hb
      cases hb
      refine ⟨by simp [markBackendStatusList], ?_⟩
      intro k hk
      cases k with
      | zero => exact absurd rfl hk
      | succ k => simp [markBackendStatusList]
    | succ i =>
      rw [List.getElem?_cons_succ] at hb
      have hc : c.URL ≠ b.URL := hfirst 0 c (Nat.succ_pos i) (by simp)
      have hrec := ih i b hb (fun j d hj hd =>
        hfirst (j + 1) d (Nat.succ_lt_succ hj) (by simpa using hd))
      refine ⟨by simpa [markBackendStatusList, hc] using hrec.1, ?_⟩
      intro k hk
      cases k with
      | zero => simp [markBackendStatusList, hc]
      | succ k =>
        have := hrec.2 k (fun h => hk (congrArg Nat.succ h))
        simpa [markBackendStatusList, hc] using this

/-! ## The request path -/

theorem getRetry_set (r : Request) (n : Nat) :
    getRetryFromContext { r with retry := some n } = n := rfl

theorem getAttempts_set (r : Request) (n : Nat) :
    getAttemptsFromContext { r with attempts := some n } = n := rfl

/-- A failed forward below the retry ceiling: the handler re-forwards. -/
theorem step_forward_retry (fwd : Nat → Bool) (m : Machine) (peer : Nat) (r : Request)
    (b : Backend) (hphase : m.phase = Phase.forward peer r)
    (hb : m.pool.backends[peer]? = some b) (hfail : fwd m.forwards = false)
    (hret : getRetryFromContext r < 3) :
    step fwd m
      = { pool := m.pool,
          phase := Phase.forward peer { r with retry := some (getRetryFromContext r + 1) },
          trace := m.trace ++ [Event.forwarded peer, Event.slept],
          forwards := m.forwards + 1 } := by
  simp [step, hphase, hb, hfail, errorHandler, hret]

/-- A failed forward at the retry ceiling: the handler marks and re-dispatches. -/
theorem step_forward_failover (fwd : Nat → Bool) (m : Machine) (peer : Nat) (r : Request)
    (b : Backend) (hphase : m.phase = Phase.forward peer r)
    (hb : m.pool.backends[peer]? = some b) (hfail : fwd m.forwards = false)
    (hret : 3 ≤ getRetryFromContext r) :
    step fwd m
      = { pool := m.pool.markBackendStatus b.URL false,
          phase := Phase.dispatch { r with attempts := some (getAttemptsFromContext r + 1) },
          trace := m.trace ++ [Event.forwarded peer, Event.marked b.URL false],
          forwards := m.forwards + 1 } := by
  have hnot : ¬ getRetryFromContext r < 3 := by omega
  simp [step, hphase, hb, hfail, errorHandler, hnot]

theorem step_dispatch (fwd : Nat → Bool) (m : Machine) (r : Request)
    (hphase : m.phase = Phase.dispatch r) {p : Phase} {s : ServerPool} {ev : List Event}
    (hlb : loadBalance m.pool r = some (p, s, ev)) :
    step fwd m = { m with pool := s, phase := p, trace := m.trace ++ ev } := by
  simp [step, hphase, hlb]

theorem step_terminal (fwd : Nat → Bool) (m : Machine)
    (h : m.phase.isTerminal = true) : step fwd m = m := by
  cases hp : m.phase with
  | dispatch r => rw [hp] at h; cases h
  | forward peer r => rw [hp] at h; cases h
  | served peer => simp [step, hp]
  | unavailable => simp [step, hp]
  | panicked => simp [step, hp]

theorem run_terminal (fwd : Nat → Bool) :
    ∀ (n : Nat) (m : Machine), m.phase.isTerminal = true → run fwd n m = m := by
  intro n
  induction n with
  | zero => intro m _; rfl
  | succ n ih =>
    intro m h
    rw [run, step_terminal fwd m h]
    exact ih m h

theorem run_add (fwd : Nat → Bool) :
    ∀ (a b : Nat) (m : Machine), run fwd (a + b) m = run fwd b (run fwd a m) := by
  intro a
  induction a with
  | zero => intro b m; simp [run]
  | succ a ih =>
    intro b m
    rw [show a + 1 + b = (a + b) + 1 by omega, run, run, ih]

theorem localRetries_append (t1 t2 : List Event) :
    localRetries (t1 ++ t2) = localRetries t1 + localRetries t2 := by
  simp [localRetries, List.countP_append]

theorem selections_append (t1 t2 : List Event) :
    selections (t1 ++ t2) = selections t1 + selections t2 := by
  simp [selections, List.countP_append]

theorem marks_append (t1 t2 : List Event) :
    marks (t1 ++ t2) = marks t1 + marks t2 := by
  simp [marks, List.countP_append]

/-- What `loadBalance` can hand back: a 503, or a forward of the same request. -/
theorem loadBalance_cases {s : ServerPool} {r : Request} {p : Phase} {s2 : ServerPool}
    {ev : List Event} (h : loadBalance s r = some (p, s2, ev)) :
    (p = Phase.unavailable ∧ ev = [Event.unavailable]) ∨
    (∃ peer, p = Phase.forward peer r ∧ ev = [Event.selected peer]) := by
  unfold loadBalance at h
  by_cases ha : 3 < getAttemptsFromContext r
  · simp only [ha, if_true, Option.some.injEq, Prod.mk.injEq] at h
    exact Or.inl ⟨h.1.symm, h.2.2.symm⟩
  · cases hg : s.getNextPeer with
    | none => simp [ha, hg] at h
    | some res =>
      cases hpeer : res.peer with
      | none =>
        simp only [ha, hg, hpeer, if_false, Option.some.injEq, Prod.mk.injEq] at h
        exact Or.inl ⟨h.1.symm, h.2.2.symm⟩
      | some peer =>
        simp only [ha, hg, hpeer, if_false, Option.some.injEq, Prod.mk.injEq] at h
        exact Or.inr ⟨peer, h.1.symm, h.2.2.symm⟩

/-- One control transfer keeps the local-retry bound. -/
theorem step_retryBound (fwd : Nat → Bool) (base : Nat) (m : Machine)
    (h : retryBound base m) : retryBound base (step fwd m) := by
  cases hp : m.phase with
  | dispatch r =>
    simp only [retryBound, hp] at h
    cases hlb : loadBalance m.pool r with
    | none => simp only [step, hp, hlb, retryBound]; omega
    | some res =>
      obtain ⟨p, s, ev⟩ := res
      rw [step_dispatch fwd m r hp hlb]
      rcases loadBalance_cases hlb with ⟨rfl, rfl⟩ | ⟨peer, rfl, rfl⟩
      · simp only [retryBound, localRetries_append]
        have h0 : localRetries [Event.unavailable] = 0 := rfl
        omega
      · simp only [retryBound, localRetries_append]
        have h0 : localRetries [Event.selected peer] = 0 := rfl
        omega
  | forward peer r =>
    simp only [retryBound, hp] at h
    cases hb : m.pool.backends[peer]? with
    | none => simp only [step, hp, hb, retryBound]; omega
    | some b =>
      cases hf : fwd m.forwards with
      | true =>
        simp only [step, hp, hb, hf, if_true, retryBound, localRetries_append]
        have h0 : localRetries [Event.forwarded peer] = 0 := rfl
        omega
      | false =>
        by_cases hret : getRetryFromContext r < 3
        · rw [step_forward_retry fwd m peer r b hp hb hf hret]
          simp only [retryBound, localRetries_append, getRetry_set]
          have h0 : localRetries [Event.forwarded peer, Event.slept] = 1 := rfl
          omega
        · rw [step_forward_failover fwd m peer r b hp hb hf (by omega)]
          simp only [retryBound, localRetries_append]
          have hkeep : getRetryFromContext
              { r with attempts := some (getAttemptsFromContext r + 1) }
              = getRetryFromContext r := rfl
          have h0 : localRetries [Event.forwarded peer, Event.marked b.URL false] = 0 := rfl
          rw [hkeep]
          omega
  | served peer => rw [step_terminal fwd m (by rw [hp]; rfl)]; exact h
  | unavailable => rw [step_terminal fwd m (by rw [hp]; rfl)]; exact h
  | panicked => rw [step_terminal fwd m (by rw [hp]; rfl)]; exact h

theorem run_retryBound (fwd : Nat → Bool) (base : Nat) :
    ∀ (n : Nat) (m : Machine), retryBound base m → retryBound base (run fwd n m) := by
  intro n
  induction n with
  | zero => intro m h; exact h
  | succ n ih => intro m h; exact ih _ (step_retryBound fwd base m h)

theorem localRetries_le_of_retryBound (base : Nat) (m : Machine)
    (h : retryBound base m) : localRetries m.trace ≤ base + 3 := by
  unfold retryBound at h
  split at h <;> omega

/-- Four failed forwards in a row from `retries = 0`: three local retries on the
same backend, then one failover. -/
theorem run_four_failures (fwd : Nat → Bool) (m : Machine) (peer : Nat) (r : Request)
    (b : Backend) (hphase : m.phase = Phase.forward peer r)
    (hb : m.pool.backends[peer]? = some b) (hret : getRetryFromContext r = 0)
    (hfail : ∀ j, j < 4 → fwd (m.forwards + j) = false) :
    run fwd 4 m
      = { pool := m.pool.markBackendStatus b.URL false,
          phase := Phase.dispatch ⟨some (getAttemptsFromContext r + 1), some 3⟩,
          trace := m.trace ++ [Event.forwarded peer, Event.slept, Event.forwarded peer,
            Event.slept, Event.forwarded peer, Event.slept, Event.forwarded peer,
            Event.marked b.URL false],
          forwards := m.forwards + 4 } := by
  have hf0 : fwd m.forwards = false := hfail 0 (by omega)
  have hf1 : fwd (m.forwards + 1) = false := hfail 1 (by omega)
  have hf2 : fwd (m.forwards + 1 + 1) = false := hfail 2 (by omega)
  have hf3 : fwd (m.forwards + 1 + 1 + 1) = false := hfail 3 (by omega)
  have h1 := step_forward_retry fwd m peer r b hphase hb hf0 (by omega)
  rw [hret] at h1
  have h2 := step_forward_retry fwd
    { pool := m.pool, phase := Phase.forward peer { r with retry := some (0 + 1) },
      trace := m.trace ++ [Event.forwarded peer, Event.slept], forwards := m.forwards + 1 }
    peer { r with retry := some (0 + 1) } b rfl hb hf1 (by show 0 + 1 < 3; omega)
  rw [getRetry_set] at h2
  have h3 := step_forward_retry fwd
    { pool := m.pool, phase := Phase.forward peer { r with retry := some (0 + 1 + 1) },
      trace := m.trace ++ [Event.forwarded peer, Event.slept]
        ++ [Event.forwarded peer, Event.slept],
      forwards := m.forwards + 1 + 1 }
    peer { r with retry := some (0 + 1 + 1) } b rfl hb hf2 (by show 0 + 1 + 1 < 3; omega)
  rw [getRetry_set] at h3
  have h4 := step_forward_failover fwd
    { pool := m.pool, phase := Phase.forward peer { r with retry := some (0 + 1 + 1 + 1) },
      trace := m.trace ++ [Event.forwarded peer, Event.slept]
        ++ [Event.forwarded peer, Event.slept] ++ [Event.forwarded peer, Event.slept],
      forwards := m.forwards + 1 + 1 + 1 }
    peer { r with retry := some (0 + 1 + 1 + 1) } b rfl hb hf3 (by show 3 ≤ 0 + 1 + 1 + 1; omega)
  simp only [run]
  rw [h1, h2, h3, h4]
  simp [getAttemptsFromContext]

/-! ## Termination of the request path -/

theorem budget_pos_of_not_terminal (p : Phase) (h : p.isTerminal = false) : 0 < p.budget := by
  cases p with
  | dispatch r => simp only [Phase.budget]; split <;> omega
  | forward peer r => simp only [Phase.budget]; split <;> omega
  | served peer => cases h
  | unavailable => cases h
  | panicked => cases h

theorem terminal_of_budget_zero (p : Phase) (h : p.budget = 0) : p.isTerminal = true := by
  cases hp : p.isTerminal with
  | true => rfl
  | false => have := budget_pos_of_not_terminal p hp; omega

/-- Every control transfer from a non-terminal point lowers the budget. -/
theorem step_budget (fwd : Nat → Bool) (m : Machine) (h : m.phase.isTerminal = false) :
    (step fwd m).phase.budget < m.phase.budget := by
  cases hp : m.phase with
  | dispatch r =>
    cases hlb : loadBalance m.pool r with
    | none =>
      simp only [step, hp, hlb]
      exact budget_pos_of_not_terminal _ rfl
    | some res =>
      obtain ⟨p, s, ev⟩ := res
      rw [step_dispatch fwd m r hp hlb]
      rcases loadBalance_cases hlb with ⟨rfl, rfl⟩ | ⟨peer, rfl, rfl⟩
      · exact budget_pos_of_not_terminal _ rfl
      · have hna : ¬ 3 < getAttemptsFromContext r := by
          intro ha
          simp [loadBalance, ha] at hlb
        simp only [Phase.budget, hna, if_false]
        omega
  | forward peer r =>
    cases hb : m.pool.backends[peer]? with
    | none =>
      simp only [step, hp, hb]
      exact budget_pos_of_not_terminal _ rfl
    | some b =>
      cases hf : fwd m.forwards with
      | true =>
        simp only [step, hp, hb, hf, if_true]
        exact budget_pos_of_not_terminal _ rfl
      | false =>
        by_cases hret : getRetryFromContext r < 3
        · rw [step_forward_retry fwd m peer r b hp hb hf hret]
          have hkeep : getAttemptsFromContext
              { r with retry := some (getRetryFromContext r + 1) }
              = getAttemptsFromContext r := rfl
          simp only [Phase.budget, hkeep, getRetry_set]
          split <;> omega
        · rw [step_forward_failover fwd m peer r b hp hb hf (by omega)]
          have hkeep : getRetryFromContext
              { r with attempts := some (getAttemptsFromContext r + 1) }
              = getRetryFromContext r := rfl
          simp only [Phase.budget, hkeep, getAttempts_set]
          split <;> split <;> omega
  | served peer => rw [hp] at h; cases h
  | unavailable => rw [hp] at h; cases h
  | panicked => rw [hp] at h; cases h

/-- Running for at least the budget reaches a terminal point. -/
theorem run_reaches_terminal (fwd : Nat → Bool) :
    ∀ (n : Nat) (m : Machine), m.phase.budget ≤ n →
      (run fwd n m).phase.isTerminal = true := by
  intro n
  induction n with
  | zero =>
    intro m h
    exact terminal_of_budget_zero _ (Nat.le_zero.mp h)
  | succ n ih =>
    intro m h
    cases ht : m.phase.isTerminal with
    | true => rw [run_terminal fwd _ m ht]; exact ht
    | false =>
      rw [run]
      exact ih _ (by have := step_budget fwd m ht; omega)

theorem budget_dispatch_le (r : Request) : (Phase.dispatch r).budget ≤ 12 := by
  simp only [Phase.budget]
  split <;> omega

/-! ## Alive backends under failover -/

theorem aliveCount_of_allAlive {s : ServerPool} (h : s.allAlive = true) :
    s.aliveCount = s.backends.length := by
  simp only [ServerPool.allAlive, List.all_eq_true] at h
  simp only [ServerPool.aliveCount]
  exact List.countP_eq_length.mpr h

theorem exists_aliveAt_of_aliveCount_pos {s : ServerPool} (h : 0 < s.aliveCount) :
    ∃ i, s.aliveAt i = true := by
  obtain ⟨b, hmem, hb⟩ := List.countP_pos_iff.mp h
  obtain ⟨i, hi, hget⟩ := List.getElem_of_mem hmem
  have hget2 : s.backends[i]? = some b := by rw [List.getElem?_eq_getElem hi, hget]
  exact ⟨i, by rw [aliveAt_of_getElem? hget2]; exact hb⟩

theorem aliveAt_false_of_aliveCount_zero {s : ServerPool} (h : s.aliveCount = 0)
    (i : Nat) : s.aliveAt i = false := by
  cases hv : s.aliveAt i with
  | false => rfl
  | true =>
    have hlt := aliveAt_lt hv
    have hget : s.backends[i]? = some (s.backends[i]) := List.getElem?_eq_getElem hlt
    rw [aliveAt_of_getElem? hget] at hv
    have := List.countP_eq_zero.mp h _ (List.getElem_mem hlt)
    exact absurd hv this

/-- Marking an alive backend dead by a URL that no other backend shares lowers
the number of alive backends by one. -/
theorem markBackendStatusList_count :
    ∀ (l : List Backend) (i : Nat) (b : Backend), l[i]? = some b → b.isAlive = true →
      (l.map Backend.URL).Nodup →
      (markBackendStatusList b.URL false l).countP Backend.isAlive + 1
        = l.countP Backend.isAlive := by
  intro l
  induction l with
  | nil => intro i b hb; simp at hb
  | cons c l ih =>
    intro i b hb halive hnodup
    rw [List.map_cons, List.nodup_cons] at hnodup
    by_cases hc : c.URL = b.URL
    · cases i with
      | zero =>
        rw [List.getElem?_cons_zero] at hb
        cases hb
        simp [markBackendStatusList, List.countP_cons, Backend.setAlive, Backend.isAlive] at halive ⊢
        simp [halive]
      | succ i =>
        rw [List.getElem?_cons_succ] at hb
        exact absurd (hc ▸ List.mem_map_of_mem Backend.URL (List.getElem?_mem hb)) hnodup.1
    · cases i with
      | zero =>
        rw [List.getElem?_cons_zero] at hb
        cases hb
        exact absurd rfl hc
      | succ i =>
        rw [List.getElem?_cons_succ] at hb
        have hrec := ih i b hb halive hnodup.2
        simp only [markBackendStatusList, hc, if_false, List.countP_cons]
        omega

theorem aliveCount_mark (s : ServerPool) (i : Nat) (b : Backend)
    (hb : s.backends[i]? = some b) (halive : b.isAlive = true)
    (hnodup : (s.backends.map Backend.URL).Nodup) :
    (s.markBackendStatus b.URL false).aliveCount + 1 = s.aliveCount ∧
    (s.markBackendStatus b.URL false).backends.map Backend.URL
      = s.backends.map Backend.URL :=
  ⟨markBackendStatusList_count s.backends i b hb halive hnodup,
    markBackendStatusList_urls b.URL false s.backends⟩

/-- A dispatch below the attempt ceiling with an alive backend selects one. -/
theorem step_dispatch_select (fwd : Nat → Bool) (m : Machine) (r : Request)
    (hphase : m.phase = Phase.dispatch r) (ha : getAttemptsFromContext r ≤ 3)
    (hcount : 0 < m.pool.aliveCount) :
    ∃ idx b p, p.backends = m.pool.backends ∧ m.pool.backends[idx]? = some b ∧
      b.isAlive = true ∧
      step fwd m
        = { m with pool := p, phase := Phase.forward idx r,
                   trace := m.trace ++ [Event.selected idx] } := by
  obtain ⟨i, hi⟩ := exists_aliveAt_of_aliveCount_pos hcount
  have hN : 0 < m.pool.backends.length :=
    Nat.lt_of_le_of_lt (Nat.zero_le i) (aliveAt_lt hi)
  obtain ⟨res, hres, hback, hcase⟩ := getNextPeer_spec m.pool hN
  rcases hcase with ⟨idx, hp, halive⟩ | ⟨_, hall⟩
  · have hlt := aliveAt_lt halive
    have hget : m.pool.backends[idx]? = some (m.pool.backends[idx]) :=
      List.getElem?_eq_getElem hlt
    have hna : ¬ 3 < getAttemptsFromContext r := by omega
    have hlb : loadBalance m.pool r
        = some (Phase.forward idx r, res.pool, [Event.selected idx]) := by
      simp [loadBalance, hna, hres, hp]
    refine ⟨idx, _, res.pool, hback, hget, ?_, step_dispatch fwd m r hphase hlb⟩
    rw [← aliveAt_of_getElem? hget]; exact halive
  · rw [hall i] at hi; cases hi

/-- A dispatch below the attempt ceiling with no alive backend answers 503. -/
theorem step_dispatch_dead (fwd : Nat → Bool) (m : Machine) (r : Request)
    (hphase : m.phase = Phase.dispatch r) (ha : getAttemptsFromContext r ≤ 3)
    (hN : 0 < m.pool.backends.length) (hcount : m.pool.aliveCount = 0) :
    ∃ p, step fwd m
      = { m with pool := p, phase := Phase.unavailable,
                 trace := m.trace ++ [Event.unavailable] } := by
  obtain ⟨res, hres, _, hcase⟩ := getNextPeer_spec m.pool hN
  rcases hcase with ⟨idx, _, halive⟩ | ⟨hp, _⟩
  · rw [aliveAt_false_of_aliveCount_zero hcount] at halive; cases halive
  · have hna : ¬ 3 < getAttemptsFromContext r := by omega
    have hlb : loadBalance m.pool r
        = some (Phase.unavailable, res.pool, [Event.unavailable]) := by
      simp [loadBalance, hna, hres, hp]
    exact ⟨res.pool, step_dispatch fwd m r hphase hlb⟩

/-- A dispatch above the attempt ceiling answers 503 without touching the pool. -/
theorem step_dispatch_ceiling (fwd : Nat → Bool) (m : Machine) (r : Request)
    (hphase : m.phase = Phase.dispatch r) (ha : 3 < getAttemptsFromContext r) :
    step fwd m
      = { m with phase := Phase.unavailable, trace := m.trace ++ [Event.unavailable] } := by
  have hlb : loadBalance m.pool r = some (Phase.unavailable, m.pool, [Event.unavailable]) := by
    simp [loadBalance, ha]
  rw [step_dispatch fwd m r hphase hlb]

/-- The first round of a request whose forwards all fail: one selection, four
forwards, one failover. -/
theorem round_first (m : Machine) (hphase : m.phase = Phase.dispatch ⟨none, none⟩)
    (hnodup : (m.pool.backends.map Backend.URL).Nodup) (hcount : 0 < m.pool.aliveCount) :
    (run allFail 5 m).phase = Phase.dispatch ⟨some 1, some 3⟩ ∧
    (run allFail 5 m).pool.backends.map Backend.URL = m.pool.backends.map Backend.URL ∧
    (run allFail 5 m).pool.aliveCount + 1 = m.pool.aliveCount ∧
    selections (run allFail 5 m).trace = selections m.trace + 1 := by
  obtain ⟨idx, b, p, hback, hget, halive, hstep⟩ :=
    step_dispatch_select allFail m ⟨none, none⟩ hphase (by decide) hcount
  have hget2 : p.backends[idx]? = some b := by rw [hback]; exact hget
  have hnodup2 : (p.backends.map Backend.URL).Nodup := by rw [hback]; exact hnodup
  have h4 := run_four_failures allFail
    { m with pool := p, phase := Phase.forward idx ⟨none, none⟩,
             trace := m.trace ++ [Event.selected idx] }
    idx ⟨none, none⟩ b rfl hget2 rfl (fun _ _ => rfl)
  have hrun : run allFail 5 m
      = run allFail 4 { m with pool := p, phase := Phase.forward idx ⟨none, none⟩,
                               trace := m.trace ++ [Event.selected idx] } := by
    rw [show (5 : Nat) = 4 + 1 from rfl, run, hstep]
  rw [hrun, h4]
  obtain ⟨hc, hu⟩ := aliveCount_mark p idx b hget2 halive hnodup2
  refine ⟨rfl, by rw [hu, hback], ?_, ?_⟩
  · rw [hc]; simp [ServerPool.aliveCount, hback]
  · simp only [selections_append]
    rfl

/-- A later round: the retry counter is already 3, so one failed forward leads
straight to the next failover. -/
theorem round_later (m : Machine) (a : Nat) (ha : a ≤ 3)
    (hphase : m.phase = Phase.dispatch ⟨some a, some 3⟩)
    (hnodup : (m.pool.backends.map Backend.URL).Nodup) (hcount : 0 < m.pool.aliveCount) :
    (run allFail 2 m).phase = Phase.dispatch ⟨some (a + 1), some 3⟩ ∧
    (run allFail 2 m).pool.backends.map Backend.URL = m.pool.backends.map Backend.URL ∧
    (run allFail 2 m).pool.aliveCount + 1 = m.pool.aliveCount ∧
    selections (run allFail 2 m).trace = selections m.trace + 1 := by
  obtain ⟨idx, b, p, hback, hget, halive, hstep⟩ :=
    step_dispatch_select allFail m ⟨some a, some 3⟩ hphase ha hcount
  have hget2 : p.backends[idx]? = some b := by rw [hback]; exact hget
  have hnodup2 : (p.backends.map Backend.URL).Nodup := by rw [hback]; exact hnodup
  have h1 := step_forward_failover allFail
    { m with pool := p, phase := Phase.forward idx ⟨some a, some 3⟩,
             trace := m.trace ++ [Event.selected idx] }
    idx ⟨some a, some 3⟩ b rfl hget2 rfl (Nat.le_refl 3)
  have hrun : run allFail 2 m
      = step allFail { m with pool := p, phase := Phase.forward idx ⟨some a, some 3⟩,
                              trace := m.trace ++ [Event.selected idx] } := by
    simp only [run, hstep]
  rw [hrun, h1]
  obtain ⟨hc, hu⟩ := aliveCount_mark p idx b hget2 halive hnodup2
  refine ⟨rfl, by rw [hu, hback], ?_, ?_⟩
  · rw [hc]; simp [ServerPool.aliveCount, hback]
  · simp only [selections_append]
    rfl

/-- Several later rounds in a row. -/
theorem rounds_later :
    ∀ (j : Nat) (m : Machine) (a : Nat), a + j ≤ 4 →
      m.phase = Phase.dispatch ⟨some a, some 3⟩ →
      (m.pool.backends.map Backend.URL).Nodup → j ≤ m.pool.aliveCount →
      (run allFail (2 * j) m).phase = Phase.dispatch ⟨some (a + j), some 3⟩ ∧
      (run allFail (2 * j) m).pool.backends.map Backend.URL
        = m.pool.backends.map Backend.URL ∧
      (run allFail (2 * j) m).pool.aliveCount + j = m.pool.aliveCount ∧
      selections (run allFail (2 * j) m).trace = selections m.trace + j := by
  intro j
  induction j with
  | zero => intro m a _ hphase _ _; exact ⟨hphase, rfl, rfl, rfl⟩
  | succ j ih =>
    intro m a ha hphase hnodup hcount
    obtain ⟨hp2, hu2, hc2, hs2⟩ := round_later m a (by omega) hphase hnodup (by omega)
    have hnodup2 : ((run allFail 2 m).pool.backends.map Backend.URL).Nodup := by
      rw [hu2]; exact hnodup
    obtain ⟨hp3, hu3, hc3, hs3⟩ :=
      ih (run allFail 2 m) (a + 1) (by omega) hp2 hnodup2 (by omega)
    rw [show 2 * (j + 1) = 2 + 2 * j by omega, run_add]
    refine ⟨?_, hu3.trans hu2, by omega, by omega⟩
    rw [hp3, show a + 1 + j = a + (j + 1) by omega]

/-! ## More on `markBackendStatus` and `HealthCheck` -/

theorem markBackendStatusList_noop (u : String) (alive : Bool) :
    ∀ l : List Backend, (∀ b ∈ l, b.URL ≠ u) → markBackendStatusList u alive l = l := by
  intro l
  induction l with
  | nil => intro _; rfl
  | cons c l ih =>
    intro h
    have hc : c.URL ≠ u := h c (List.mem_cons_self c l)
    simp only [markBackendStatusList, hc, if_false]
    rw [ih (fun b hb => h b (List.mem_cons_of_mem c hb))]

theorem markBackendStatusList_exists (u : String) (alive : Bool) :
    ∀ l : List Backend, (∃ b ∈ l, b.URL = u) →
      ∃ b2 ∈ markBackendStatusList u alive l, b2.URL = u ∧ b2.isAlive = alive := by
  intro l
  induction l with
  | nil => rintro ⟨b, hb, _⟩; cases hb
  | cons c l ih =>
    rintro ⟨b, hb, hbu⟩
    by_cases hc : c.URL = u
    · refine ⟨c.setAlive alive, ?_, hc, rfl⟩
      simp [markBackendStatusList, hc]
    · have hbl : b ∈ l := by
        rcases List.mem_cons.mp hb with rfl | h
        · exact absurd hbu hc
        · exact h
      obtain ⟨b2, hb2, hu2, ha2⟩ := ih ⟨b, hbl, hbu⟩
      refine ⟨b2, ?_, hu2, ha2⟩
      simp only [markBackendStatusList, hc, if_false]
      exact List.mem_cons_of_mem c hb2

/-- A position whose backend differs after the call is the first one whose URL
string matches, and it now carries the flag. -/
theorem markBackendStatusList_changed (u : String) (alive : Bool) :
    ∀ (l : List Backend) (i : Nat), (markBackendStatusList u alive l)[i]? ≠ l[i]? →
      ∃ b, l[i]? = some b ∧ b.URL = u ∧
        (∀ j c, j < i → l[j]? = some c → c.URL ≠ u) ∧
        (markBackendStatusList u alive l)[i]? = some (b.setAlive alive) := by
  intro l
  induction l with
  | nil => intro i h; exact absurd rfl h
  | cons c l ih =>
    intro i h
    by_cases hc : c.URL = u
    · cases i with
      | zero =>
        refine ⟨c, List.getElem?_cons_zero, hc, fun j _ hj => absurd hj (Nat.not_lt_zero j), ?_⟩
        simp [markBackendStatusList, hc]
      | succ i => simp [markBackendStatusList, hc] at h
    · cases i with
      | zero => simp [markBackendStatusList, hc] at h
      | succ i =>
        have h2 : (markBackendStatusList u alive l)[i]? ≠ l[i]? := by
          simpa [markBackendStatusList, hc] using h
        obtain ⟨b, hb, hbu, hfirst, hnew⟩ := ih i h2
        refine ⟨b, by simpa using hb, hbu, ?_, by simpa [markBackendStatusList, hc] using hnew⟩
        intro j d hj hd
        cases j with
        | zero =>
          have : d = c := by simpa using hd.symm
          rw [this]; exact hc
        | succ j => exact hfirst j d (Nat.lt_of_succ_lt_succ hj) (by simpa using hd)

theorem healthCheckLoop_backends (probe : String → Bool) :
    ∀ l : List Backend,
      (healthCheckLoop probe l).1 = l.map fun b => b.setAlive (probe b.URL) := by
  intro l
  induction l with
  | nil => rfl
  | cons c l ih => simp [healthCheckLoop, ih]

theorem healthCheckLoop_records (probe : String → Bool) :
    ∀ l : List Backend,
      (healthCheckLoop probe l).2
        = l.map fun b => (b.URL, if !probe b.URL then "down" else "up") := by
  intro l
  induction l with
  | nil => rfl
  | cons c l ih => simp [healthCheckLoop, ih]

/-- The scan of a call on a non-empty pool begins at the index `nextIndex` gave. -/
theorem getNextPeer_probes_head (s : ServerPool) (hN : 0 < s.backends.length) :
    ∃ r, s.getNextPeer = some r ∧
      r.probes.head? = some (((s.current + 1) % 2 ^ 64) % s.backends.length) := by
  by_cases h : ∃ i, s.aliveAt i = true
  · obtain ⟨k, hk, ha, hdead⟩ :=
      exists_first_alive s (((s.current + 1) % 2 ^ 64) % s.backends.length) h
    refine ⟨_, getNextPeer_found s hN k hk ha hdead, ?_⟩
    simp [probes_succ_zero, Nat.mod_mod]
  · have hall : ∀ i, s.aliveAt i = false := by
      intro i
      cases hv : s.aliveAt i with
      | false => rfl
      | true => exact absurd ⟨i, hv⟩ h
    refine ⟨_, getNextPeer_none s hN (fun j _ => hall _), ?_⟩
    obtain ⟨n, hn⟩ : ∃ n, s.backends.length = n + 1 := ⟨s.backends.length - 1, by omega⟩
    simp only [hn, probes_succ_zero, List.head?_cons]
    rw [Nat.mod_mod]

/-- The cursor a call leaves behind when its first probe misses but some backend
is alive: the index of the returned backend. -/
theorem getNextPeer_store (s : ServerPool) (hN : 0 < s.backends.length)
    (hmiss : s.aliveAt (((s.current + 1) % 2 ^ 64) % s.backends.length) = false)
    (hsome : ∃ i, s.aliveAt i = true) :
    ∃ r idx, s.getNextPeer = some r ∧ r.peer = some idx ∧ r.pool.current = idx ∧
      r.pool.backends = s.backends ∧ idx < s.backends.length ∧ s.aliveAt idx = true ∧
      idx ≠ ((s.current + 1) % 2 ^ 64) % s.backends.length := by
  obtain ⟨k, hk, ha, hdead⟩ :=
    exists_first_alive s (((s.current + 1) % 2 ^ 64) % s.backends.length) hsome
  have hk0 : k ≠ 0 := by
    intro h0
    rw [h0, Nat.add_zero, Nat.mod_mod, hmiss] at ha
    cases ha
  refine ⟨_, _, getNextPeer_found s hN k hk ha hdead, rfl, ?_, ?_, Nat.mod_lt _ hN, ha, ?_⟩
  · simp [hk0]
  · simp [hk0]
  · intro heq
    rw [heq, hmiss] at ha
    cases ha

/-! ## The shape of an all-failing request -/

theorem forwardings_append (t1 t2 : List Event) :
    forwardings (t1 ++ t2) = forwardings t1 + forwardings t2 := by
  simp [forwardings, List.countP_append]

theorem forwardings_laterRounds :
    ∀ rest : List (Nat × String), forwardings (laterRounds rest) = rest.length := by
  intro rest
  induction rest with
  | nil => rfl
  | cons sel rest ih =>
    rw [laterRounds, forwardings_append, ih, List.length_cons]
    have h : forwardings (laterRound sel) = 1 := rfl
    omega

theorem marks_laterRounds :
    ∀ rest : List (Nat × String), marks (laterRounds rest) = rest.length := by
  intro rest
  induction rest with
  | nil => rfl
  | cons sel rest ih =>
    rw [laterRounds, marks_append, ih, List.length_cons]
    have h : marks (laterRound sel) = 1 := rfl
    omega

theorem localRetries_laterRounds :
    ∀ rest : List (Nat × String), localRetries (laterRounds rest) = 0 := by
  intro rest
  induction rest with
  | nil => rfl
  | cons sel rest ih =>
    rw [laterRounds, localRetries_append, ih]
    rfl

theorem selections_laterRounds :
    ∀ rest : List (Nat × String), selections (laterRounds rest) = rest.length := by
  intro rest
  induction rest with
  | nil => rfl
  | cons sel rest ih =>
    rw [laterRounds, selections_append, ih, List.length_cons]
    have h : selections (laterRound sel) = 1 := rfl
    omega

theorem markBackendStatus_length (s : ServerPool) (u : String) (v : Bool) :
    (s.markBackendStatus u v).backends.length = s.backends.length := by
  have := congrArg List.length (markBackendStatusList_urls u v s.backends)
  simpa using this

/-- A dispatch below the attempt ceiling on a non-empty pool either answers 503
or selects an alive backend. -/
theorem step_dispatch_cases (fwd : Nat → Bool) (m : Machine) (r : Request)
    (hphase : m.phase = Phase.dispatch r) (ha : getAttemptsFromContext r ≤ 3)
    (hN : 0 < m.pool.backends.length) :
    (∃ p, p.backends = m.pool.backends ∧
      step fwd m = { m with pool := p, phase := Phase.unavailable,
                            trace := m.trace ++ [Event.unavailable] }) ∨
    (∃ idx b p, p.backends = m.pool.backends ∧ m.pool.backends[idx]? = some b ∧
      b.isAlive = true ∧
      step fwd m = { m with pool := p, phase := Phase.forward idx r,
                            trace := m.trace ++ [Event.selected idx] }) := by
  obtain ⟨res, hres, hback, hcase⟩ := getNextPeer_spec m.pool hN
  have hna : ¬ 3 < getAttemptsFromContext r := by omega
  rcases hcase with ⟨idx, hp, halive⟩ | ⟨hp, _⟩
  · have hlt := aliveAt_lt halive
    have hget : m.pool.backends[idx]? = some (m.pool.backends[idx]) :=
      List.getElem?_eq_getElem hlt
    have hlb : loadBalance m.pool r
        = some (Phase.forward idx r, res.pool, [Event.selected idx]) := by
      simp [loadBalance, hna, hres, hp]
    refine Or.inr ⟨idx, _, res.pool, hback, hget, ?_, step_dispatch fwd m r hphase hlb⟩
    rw [← aliveAt_of_getElem? hget]; exact halive
  · have hlb : loadBalance m.pool r
        = some (Phase.unavailable, res.pool, [Event.unavailable]) := by
      simp [loadBalance, hna, hres, hp]
    exact Or.inl ⟨res.pool, hback, step_dispatch fwd m r hphase hlb⟩

/-- After the first failover every further selection costs one forward and one
mark, until the attempt ceiling or an empty set of alive backends ends the
request. -/
theorem tail_rounds :
    ∀ (j : Nat) (m : Machine) (a : Nat), a + j = 4 →
      m.phase = Phase.dispatch ⟨some a, some 3⟩ → 0 < m.pool.backends.length →
      ∃ rest : List (Nat × String), rest.length ≤ j ∧
        (run allFail (2 * j + 1) m).phase = Phase.unavailable ∧
        (run allFail (2 * j + 1) m).trace
          = m.trace ++ laterRounds rest ++ [Event.unavailable] := by
  intro j
  induction j with
  | zero =>
    intro m a ha hphase _
    refine ⟨[], Nat.le_refl _, ?_, ?_⟩
    · show (step allFail m).phase = Phase.unavailable
      rw [step_dispatch_ceiling allFail m _ hphase (by show 3 < a; omega)]
    · show (step allFail m).trace = _
      rw [step_dispatch_ceiling allFail m _ hphase (by show 3 < a; omega)]
      simp [laterRounds]
  | succ j ih =>
    intro m a ha hphase hN
    have hrun : run allFail (2 * (j + 1) + 1) m
        = run allFail (2 * j + 1) (step allFail (step allFail m)) := by
      rw [show 2 * (j + 1) + 1 = (2 * j + 1) + 1 + 1 by omega, run, run]
    rcases step_dispatch_cases allFail m _ hphase (by show a ≤ 3; omega) hN with
      ⟨p, _, hstep⟩ | ⟨idx, b, p, hback, hget, _, hstep⟩
    · have hterm : (step allFail m).phase.isTerminal = true := by rw [hstep]; rfl
      rw [hrun, step_terminal allFail _ hterm, run_terminal allFail _ _ hterm, hstep]
      exact ⟨[], Nat.zero_le _, rfl, by simp [laterRounds]⟩
    · have hget2 : p.backends[idx]? = some b := by rw [hback]; exact hget
      have h2 : step allFail
          { m with pool := p, phase := Phase.forward idx ⟨some a, some 3⟩,
                   trace := m.trace ++ [Event.selected idx] }
          = { pool := p.markBackendStatus b.URL false,
              phase := Phase.dispatch ⟨some (a + 1), some 3⟩,
              trace := m.trace ++ [Event.selected idx]
                ++ [Event.forwarded idx, Event.marked b.URL false],
              forwards := m.forwards + 1 } :=
        step_forward_failover allFail
          { m with pool := p, phase := Phase.forward idx ⟨some a, some 3⟩,
                   trace := m.trace ++ [Event.selected idx] }
          idx ⟨some a, some 3⟩ b rfl hget2 rfl (Nat.le_refl 3)
      rw [hrun, hstep, h2]
      obtain ⟨rest, hlen, hph, htr⟩ := ih
        { pool := p.markBackendStatus b.URL false,
          phase := Phase.dispatch ⟨some (a + 1), some 3⟩,
          trace := m.trace ++ [Event.selected idx]
            ++ [Event.forwarded idx, Event.marked b.URL false],
          forwards := m.forwards + 1 }
        (a + 1) (by omega) rfl
        (by rw [markBackendStatus_length, hback]; exact hN)
      refine ⟨(idx, b.URL) :: rest, by simp; omega, hph, ?_⟩
      rw [htr]
      simp [laterRounds, laterRound, List.append_assoc]

/-! ## Rotation over the alive backends -/

theorem countP_range_alive :
    ∀ l : List Backend,
      (List.range l.length).countP (fun i =>
          match l[i]? with
          | some b => b.isAlive
          | none => false)
        = l.countP Backend.isAlive := by
  intro l
  induction l with
  | nil => rfl
  | cons c l ih =>
    rw [List.length_cons, List.range_succ_eq_map, List.countP_cons, List.countP_cons,
      List.countP_map, ← ih]
    simp only [List.getElem?_cons_zero]
    congr 1
    apply List.countP_congr
    intro i _
    simp [Function.comp]

/-- Counting the alive positions below the pool size gives `aliveCount`. -/
theorem count_alive_length (s : ServerPool) :
    Nat.count (fun x => s.aliveAt (x % s.backends.length) = true) s.backends.length
      = s.aliveCount := by
  rw [Nat.count, ServerPool.aliveCount, ← countP_range_alive s.backends]
  apply List.countP_congr
  intro x hx
  have hlt : x < s.backends.length := List.mem_range.mp hx
  simp [ServerPool.aliveAt, Nat.mod_eq_of_lt hlt]

/-- Every window of `N` consecutive positions holds `aliveCount` alive ones. -/
theorem count_alive_period (s : ServerPool) :
    ∀ a, Nat.count (fun x => s.aliveAt (x % s.backends.length) = true) (a + s.backends.length)
      = Nat.count (fun x => s.aliveAt (x % s.backends.length) = true) a + s.aliveCount := by
  intro a
  induction a with
  | zero => simp [count_alive_length]
  | succ a ih =>
    rw [show a + 1 + s.backends.length = a + s.backends.length + 1 by omega,
      Nat.count_succ, Nat.count_succ, ih, Nat.add_mod_right]
    omega

/-- No alive position in `[a, b)`: the count does not move. -/
theorem count_alive_gap (s : ServerPool) (a : Nat) :
    ∀ b, a ≤ b → (∀ x, a ≤ x → x < b → s.aliveAt (x % s.backends.length) = false) →
      Nat.count (fun x => s.aliveAt (x % s.backends.length) = true) b
        = Nat.count (fun x => s.aliveAt (x % s.backends.length) = true) a := by
  intro b hab
  induction b, hab using Nat.le_induction with
  | base => intro _; rfl
  | succ b hb ih =>
    intro hdead
    rw [Nat.count_succ, ih (fun x hx hxb => hdead x hx (by omega))]
    simp [hdead b hb (by omega)]

theorem count_alive_next (s : ServerPool) (a b : Nat) (h : s.nextAliveAfter a b) :
    Nat.count (fun x => s.aliveAt (x % s.backends.length) = true) (b + 1)
      = Nat.count (fun x => s.aliveAt (x % s.backends.length) = true) (a + 1) + 1 := by
  obtain ⟨hlt, _, halive, hdead⟩ := h
  rw [Nat.count_succ, count_alive_gap s (a + 1) b hlt (fun x hx hxb => hdead x hx hxb)]
  simp [halive]

theorem nextAliveAfter_congr {s1 s2 : ServerPool} (h : s1.backends = s2.backends)
    {a b : Nat} (hr : s1.nextAliveAfter a b) : s2.nextAliveAfter a b := by
  unfold ServerPool.nextAliveAfter at hr ⊢
  simp only [aliveAt_congr h, h] at hr
  exact hr

/-- Whatever the cursor, a call on a pool with an alive backend returns an alive
position and leaves the cursor congruent to it modulo the pool size. -/
theorem getNextPeer_lands (s : ServerPool) (hN : 0 < s.backends.length)
    (hsome : ∃ i, s.aliveAt i = true) :
    ∃ r idx, s.getNextPeer = some r ∧ r.peer = some idx ∧ s.aliveAt idx = true ∧
      idx < s.backends.length ∧ r.pool.current % s.backends.length = idx ∧
      r.pool.backends = s.backends := by
  obtain ⟨k, hk, ha, hdead⟩ :=
    exists_first_alive s (((s.current + 1) % 2 ^ 64) % s.backends.length) hsome
  refine ⟨_, _, getNextPeer_found s hN k hk ha hdead, rfl, ha, Nat.mod_lt _ hN, ?_, ?_⟩
  · by_cases h0 : k = 0
    · simp [h0]
    · simp [h0]
  · by_cases h0 : k = 0 <;> simp [h0]

/-- A call whose increment does not wrap returns the first alive position after
the one the cursor stands for. -/
theorem getNextPeer_next (s : ServerPool) (hN : 0 < s.backends.length)
    (hsome : ∃ i, s.aliveAt i = true) (P : Nat)
    (hcur : s.current % s.backends.length = P % s.backends.length)
    (hnw : s.current + 1 < 2 ^ 64) :
    ∃ r Q, s.getNextPeer = some r ∧ r.peer = some (Q % s.backends.length) ∧
      s.nextAliveAfter P Q ∧
      r.pool.current % s.backends.length = Q % s.backends.length ∧
      r.pool.backends = s.backends := by
  have hmod : (s.current + 1) % 2 ^ 64 = s.current + 1 := Nat.mod_eq_of_lt hnw
  have hstart : ((s.current + 1) % 2 ^ 64) % s.backends.length
      = (P + 1) % s.backends.length := by
    rw [hmod, Nat.add_mod, hcur, ← Nat.add_mod]
  obtain ⟨k, hk, ha, hdead⟩ :=
    exists_first_alive s (((s.current + 1) % 2 ^ 64) % s.backends.length) hsome
  have hpos : ∀ j, (((s.current + 1) % 2 ^ 64) % s.backends.length + j) % s.backends.length
      = (P + 1 + j) % s.backends.length := by
    intro j
    rw [hstart, Nat.mod_add_mod]
  refine ⟨_, P + 1 + k, getNextPeer_found s hN k hk ha hdead, ?_, ?_, ?_, ?_⟩
  · rw [hpos]
  · refine ⟨by omega, by omega, by rw [← hpos]; exact ha, ?_⟩
    intro x hx hxk
    have hxe : x = P + 1 + (x - (P + 1)) := by omega
    rw [hxe, ← hpos]
    exact hdead _ (by omega)
  · by_cases h0 : k = 0
    · simp only [h0, ne_eq, not_true_eq_false, if_false, Nat.add_zero]
      rw [hstart]
    · simp only [h0, ne_eq, not_false_eq_true, if_true, Nat.mod_mod]
      rw [hpos]
  · by_cases h0 : k = 0 <;> simp [h0]

/-- Consecutive calls without a wrap walk through the alive positions in
circular order. -/
theorem getNextPeerTimes_chain (s0 : ServerPool) (hN : 0 < s0.backends.length)
    (hsome : ∃ i, s0.aliveAt i = true) :
    ∀ (n : Nat) (s : ServerPool) (P : Nat), s.backends = s0.backends →
      s.current % s0.backends.length = P % s0.backends.length →
      s.noWrapTimes n = true →
      ∃ Ps s2, s.getNextPeerTimes n
          = some (Ps.map (fun x => some (x % s0.backends.length)), s2) ∧
        Ps.length = n ∧ List.Chain s0.nextAliveAfter P Ps ∧
        s2.backends = s0.backends := by
  intro n
  induction n with
  | zero =>
    intro s P hb _ _
    exact ⟨[], s, rfl, rfl, List.Chain.nil, hb⟩
  | succ n ih =>
    intro s P hb hcur hnw
    have hNs : 0 < s.backends.length := by rw [hb]; exact hN
    have hsomes : ∃ i, s.aliveAt i = true := by
      obtain ⟨i, hi⟩ := hsome
      exact ⟨i, by rw [aliveAt_congr hb]; exact hi⟩
    rw [ServerPool.noWrapTimes, Bool.and_eq_true, decide_eq_true_eq] at hnw
    obtain ⟨r, Q, hr, hp, hnext, hcurQ, hbr⟩ :=
      getNextPeer_next s hNs hsomes P (by rw [hb]; exact hcur) hnw.1
    have hnw2 : r.pool.noWrapTimes n = true := by
      have := hnw.2
      rw [hr] at this
      exact this
    rw [hb] at hp hcurQ
    obtain ⟨Ps, s2, hrun, hlen, hchain, hb2⟩ := ih r.pool Q (hbr.trans hb) hcurQ hnw2
    refine ⟨Q :: Ps, s2, ?_, by simp [hlen], List.Chain.cons (nextAliveAfter_congr hb hnext) hchain,
      hb2⟩
    rw [ServerPool.getNextPeerTimes, hr]
    simp only [hrun, hp, List.map_cons]

/-- Along a chain of next-alive steps every position is alive, lies after the
start, and the number of alive positions up to it grows by at most one per
step. -/
theorem chain_count (s : ServerPool) :
    ∀ (Ps : List Nat) (P : Nat), List.Chain s.nextAliveAfter P Ps →
      ∀ x ∈ Ps, P < x ∧ s.aliveAt (x % s.backends.length) = true ∧
        Nat.count (fun y => s.aliveAt (y % s.backends.length) = true) (x + 1)
          ≤ Nat.count (fun y => s.aliveAt (y % s.backends.length) = true) (P + 1)
            + Ps.length := by
  intro Ps
  induction Ps with
  | nil => intro P _ x hx; cases hx
  | cons Q Ps ih =>
    intro P hchain x hx
    rw [List.chain_cons] at hchain
    obtain ⟨hPQ, hrest⟩ := hchain
    have hcount := count_alive_next s P Q hPQ
    rcases List.mem_cons.mp hx with rfl | hmem
    · exact ⟨hPQ.1, hPQ.2.2.1, by rw [hcount, List.length_cons]; omega⟩
    · obtain ⟨hlt, halive, hle⟩ := ih Q hrest x hmem
      exact ⟨Nat.lt_trans hPQ.1 hlt, halive, by rw [List.length_cons]; omega⟩

theorem chain_sorted (s : ServerPool) (P : Nat) (Ps : List Nat)
    (h : List.Chain s.nextAliveAfter P Ps) : List.Pairwise (fun a b => a < b) (P :: Ps) := by
  have h2 : List.Chain (fun a b => a < b) P Ps := List.Chain.imp (fun a b hab => hab.1) h
  exact List.chain_iff_pairwise.mp h2

/-- Fewer steps than alive backends stay within one lap. -/
theorem chain_window (s : ServerPool) (P : Nat) (Ps : List Nat)
    (hP : s.aliveAt (P % s.backends.length) = true)
    (h : List.Chain s.nextAliveAfter P Ps) (hlen : Ps.length < s.aliveCount) :
    ∀ x ∈ Ps, x < P + s.backends.length := by
  intro x hx
  obtain ⟨_, halive, hle⟩ := chain_count s Ps P h x hx
  by_contra hge
  have hmono : Nat.count (fun y => s.aliveAt (y % s.backends.length) = true)
        (P + s.backends.length)
      ≤ Nat.count (fun y => s.aliveAt (y % s.backends.length) = true) x :=
    Nat.count_monotone _ (by omega)
  have hper := count_alive_period s P
  have hx1 : Nat.count (fun y => s.aliveAt (y % s.backends.length) = true) (x + 1)
      = Nat.count (fun y => s.aliveAt (y % s.backends.length) = true) x + 1 := by
    rw [Nat.count_succ]; simp [halive]
  have hP1 : Nat.count (fun y => s.aliveAt (y % s.backends.length) = true) (P + 1)
      = Nat.count (fun y => s.aliveAt (y % s.backends.length) = true) P + 1 := by
    rw [Nat.count_succ]; simp [hP]
  omega

theorem mod_inj_window (N P x y : Nat) (hx : P ≤ x) (hxN : x < P + N) (hy : P ≤ y)
    (hyN : y < P + N) (h : x % N = y % N) : x = y := by
  rcases Nat.le_total x y with hle | hle
  · have h0 : (y - x) % N = 0 := Nat.sub_mod_eq_zero_of_mod_eq h.symm
    rw [Nat.mod_eq_of_lt (by omega)] at h0
    omega
  · have h0 : (x - y) % N = 0 := Nat.sub_mod_eq_zero_of_mod_eq h
    rw [Nat.mod_eq_of_lt (by omega)] at h0
    omega

/-- A duplicate-free list of alive positions as long as `aliveCount` contains
every alive position. -/
theorem alive_covered (s : ServerPool) (idxs : List Nat) (hnodup : idxs.Nodup)
    (halive : ∀ i ∈ idxs, s.aliveAt i = true) (hlen : idxs.length = s.aliveCount) :
    ∀ i, i ∈ idxs ↔ s.aliveAt i = true := by
  have hA : ((List.range s.backends.length).filter (fun i => s.aliveAt i)).length
      = s.aliveCount := by
    rw [← List.countP_eq_length_filter, ServerPool.aliveCount,
      ← countP_range_alive s.backends]
    rfl
  have hsub : idxs ⊆ (List.range s.backends.length).filter (fun i => s.aliveAt i) := by
    intro i hi
    have ha := halive i hi
    exact List.mem_filter.mpr ⟨List.mem_range.mpr (aliveAt_lt ha), ha⟩
  have hperm := (List.subperm_of_subset hnodup hsub).perm_of_length_le (by omega)
  intro i
  constructor
  · exact halive i
  · intro ha
    exact hperm.mem_iff.mpr (List.mem_filter.mpr ⟨List.mem_range.mpr (aliveAt_lt ha), ha⟩)

/-- As many consecutive calls as there are alive backends, none wrapping,
return every alive position exactly once. -/
theorem getNextPeerTimes_covers (s : ServerPool) (hN : 0 < s.backends.length)
    (hk : 1 ≤ s.aliveCount) (hnw : s.noWrapTimes s.aliveCount = true) :
    ∃ (idxs : List Nat) (s2 : ServerPool),
        s.getNextPeerTimes s.aliveCount = some (idxs.map some, s2) ∧
      idxs.length = s.aliveCount ∧ idxs.Nodup ∧
      (∀ i, i ∈ idxs ↔ s.aliveAt i = true) ∧ s2.backends = s.backends := by
  obtain ⟨n, hn⟩ : ∃ n, s.aliveCount = n + 1 := ⟨s.aliveCount - 1, by omega⟩
  have hsome := exists_aliveAt_of_aliveCount_pos (show 0 < s.aliveCount from hk)
  obtain ⟨r, idx, hr, hp, halive, hlt, hcur, hb⟩ := getNextPeer_lands s hN hsome
  have hidx : idx % s.backends.length = idx := Nat.mod_eq_of_lt hlt
  rw [hn] at hnw
  rw [ServerPool.noWrapTimes, Bool.and_eq_true] at hnw
  have hnw2 : r.pool.noWrapTimes n = true := by
    have := hnw.2
    rw [hr] at this
    exact this
  obtain ⟨Ps, s2, hrun, hlen, hchain, hb2⟩ :=
    getNextPeerTimes_chain s hN hsome n r.pool idx hb (by rw [hcur, hidx]) hnw2
  have hPalive : s.aliveAt (idx % s.backends.length) = true := by rw [hidx]; exact halive
  have hwin := chain_window s idx Ps hPalive hchain (by omega)
  have hcnt := chain_count s Ps idx hchain
  have hsorted := chain_sorted s idx Ps hchain
  have hnodupL : (idx :: Ps).Nodup := hsorted.imp (fun h => Nat.ne_of_lt h)
  have hrange : ∀ x ∈ idx :: Ps, idx ≤ x ∧ x < idx + s.backends.length := by
    intro x hx
    rcases List.mem_cons.mp hx with rfl | hmem
    · exact ⟨Nat.le_refl _, by omega⟩
    · exact ⟨Nat.le_of_lt (hcnt x hmem).1, hwin x hmem⟩
  have hnodup : ((idx :: Ps).map (fun x => x % s.backends.length)).Nodup := by
    apply List.Nodup.map_on _ hnodupL
    intro x hx y hy hxy
    exact mod_inj_window _ idx x y (hrange x hx).1 (hrange x hx).2 (hrange y hy).1
      (hrange y hy).2 hxy
  have haliveAll : ∀ i ∈ (idx :: Ps).map (fun x => x % s.backends.length),
      s.aliveAt i = true := by
    intro i hi
    obtain ⟨x, hx, rfl⟩ := List.mem_map.mp hi
    rcases List.mem_cons.mp hx with rfl | hmem
    · exact hPalive
    · exact (hcnt x hmem).2.1
  have hlenI : ((idx :: Ps).map (fun x => x % s.backends.length)).length = s.aliveCount := by
    simp [hlen, hn]
  refine ⟨(idx :: Ps).map (fun x => x % s.backends.length), s2, ?_, hlenI, hnodup,
    alive_covered s _ hnodup haliveAll hlenI, hb2⟩
  rw [hn, ServerPool.getNextPeerTimes, hr]
  simp only [hrun, hp, List.map_cons, List.map_map, hidx]
  rfl

/-! ## Claims about `getNextPeer` -/

/-- C1: on a pool of size `N ≥ 1` with every backend alive and cursor 0,
`N` consecutive `getNextPeer` calls all return a backend; the returned positions
are `1 % N, 2 % N, …, N % N`, so they are pairwise distinct, every position of
the pool occurs exactly once (they are a permutation of `0..N-1`), and each
result is the previous one plus one modulo `N`. -/
theorem C1_all_alive_rotation (s : ServerPool) (hN : 1 ≤ s.backends.length)
    (hlen : s.backends.length < 2 ^ 64) (halive : s.allAlive = true)
    (hcur : s.current = 0) :
    ∃ idxs s2, s.getNextPeerTimes s.backends.length = some (idxs.map some, s2) ∧
      idxs = (List.range s.backends.length).map (fun k => (k + 1) % s.backends.length) ∧
      idxs.length = s.backends.length ∧
      idxs.Nodup ∧
      idxs.Perm (List.range s.backends.length) ∧
      (∀ j, j + 1 < s.backends.length →
        ∃ a b, idxs[j]? = some a ∧ idxs[j + 1]? = some b ∧
          b = (a + 1) % s.backends.length) := by
  obtain ⟨s2, hrun, _⟩ := getNextPeerTimes_allAlive s.backends.length s hN halive
  have hps : (List.range s.backends.length).map
        (fun k => some (((s.current + 1 + k) % 2 ^ 64) % s.backends.length))
      = ((List.range s.backends.length).map
        (fun k => (k + 1) % s.backends.length)).map some := by
    rw [List.map_map]
    apply List.map_congr_left
    intro k hk
    have hk2 : k < s.backends.length := List.mem_range.mp hk
    simp only [Function.comp]
    rw [hcur, show 0 + 1 + k = k + 1 by omega,
      Nat.mod_eq_of_lt (show k + 1 < 2 ^ 64 by omega)]
  rw [hps] at hrun
  have hnodup : ((List.range s.backends.length).map
      (fun k => (k + 1) % s.backends.length)).Nodup := by
    apply List.Nodup.map_on _ (List.nodup_range _)
    intro x hx y hy hxy
    exact succ_mod_inj _ x y (List.mem_range.mp hx) (List.mem_range.mp hy) hxy
  refine ⟨_, s2, hrun, rfl, by simp, hnodup, ?_, ?_⟩
  · rw [List.perm_ext_iff_of_nodup hnodup (List.nodup_range _)]
    intro i
    constructor
    · intro hi
      obtain ⟨k, _, hk⟩ := List.mem_map.mp hi
      exact List.mem_range.mpr (hk ▸ Nat.mod_lt _ hN)
    · intro hi
      have hi2 : i < s.backends.length := List.mem_range.mp hi
      apply List.mem_map.mpr
      rcases Nat.eq_zero_or_pos i with h0 | hpos
      · refine ⟨s.backends.length - 1, List.mem_range.mpr (by omega), ?_⟩
        rw [show s.backends.length - 1 + 1 = s.backends.length by omega, Nat.mod_self, h0]
      · refine ⟨i - 1, List.mem_range.mpr (by omega), ?_⟩
        rw [show i - 1 + 1 = i by omega, Nat.mod_eq_of_lt hi2]
  · intro j hj
    refine ⟨(j + 1) % s.backends.length, (j + 1 + 1) % s.backends.length, ?_, ?_, ?_⟩
    · simp [List.getElem?_map, List.getElem?_range, show j < s.backends.length by omega]
    · simp [List.getElem?_map, List.getElem?_range, hj]
    · rw [Nat.mod_eq_of_lt hj]

/-- C1 at the pool `[A, B, C]`, all alive, cursor 0: the three calls return the
positions 1, 2, 0. -/
theorem C1_all_alive_rotation_witness :
    ∃ idxs s2,
      ServerPool.getNextPeerTimes 3 ⟨[⟨"A", true⟩, ⟨"B", true⟩, ⟨"C", true⟩], 0⟩
        = some (idxs.map some, s2) ∧
      idxs = [1, 2, 0] ∧ idxs.Nodup ∧ idxs.Perm (List.range 3) :=
  let ⟨idxs, s2, hrun, heq, _, hnodup, hperm, _⟩ :=
    C1_all_alive_rotation ⟨[⟨"A", true⟩, ⟨"B", true⟩, ⟨"C", true⟩], 0⟩
      (by decide) (by decide) (by decide) rfl
  ⟨idxs, s2, hrun, heq.trans (by decide), hnodup, hperm⟩

/-- C2 as stated fails: on the pool `[A, B]`, both alive, cursor 0, three calls
return the positions 1, 0, 1 (B, A, B), not 0, 1, 0 (A, B, A). -/
theorem C2_counterexample :
    (ServerPool.getNextPeerTimes 3 ⟨[⟨"A", true⟩, ⟨"B", true⟩], 0⟩).map Prod.fst
        = some [some 1, some 0, some 1] ∧
    (ServerPool.getNextPeerTimes 3 ⟨[⟨"A", true⟩, ⟨"B", true⟩], 0⟩).map Prod.fst
        ≠ some [some 0, some 1, some 0] := by
  decide

/-- C2 (amended): for the pool `[A, B]` with both backends alive and cursor 0,
three consecutive `getNextPeer` calls return B, then A, then B (positions 1, 0,
1), because `nextIndex` increments the cursor before reading it; the cursor
ends at 3 and no liveness flag changes. -/
theorem C2_two_alive_rotation (urlA urlB : String) :
    ServerPool.getNextPeerTimes 3 ⟨[⟨urlA, true⟩, ⟨urlB, true⟩], 0⟩
      = some ([some 1, some 0, some 1], ⟨[⟨urlA, true⟩, ⟨urlB, true⟩], 3⟩) := by
  simp [ServerPool.getNextPeerTimes, ServerPool.getNextPeer, ServerPool.nextIndex,
    ServerPool.getNextPeerLoop, Backend.isAlive]

/-- C3: on a pool in which exactly one backend is alive, at position `a` (so the
pool has size at least 1), for every cursor value a `getNextPeer` call returns position `a` and leaves every
backend as it was; hence each of any `n` consecutive calls returns `a`. -/
theorem C3_single_alive (s : ServerPool) (a : Nat)
    (hone : s.aliveCount = 1) (ha : s.aliveAt a = true) :
    (∃ r, s.getNextPeer = some r ∧ r.peer = some a ∧ r.pool.backends = s.backends) ∧
    ∀ n, ∃ s2, s.getNextPeerTimes n = some (List.replicate n (some a), s2) ∧
      s2.backends = s.backends :=
  ⟨getNextPeer_single s a hone ha, fun n => getNextPeerTimes_single a n s hone ha⟩

/-- C3 at the pool `[A(dead), B(alive)]` with the cursor at its maximum: five
calls all return position 1. -/
theorem C3_single_alive_witness :
    (∃ r, ServerPool.getNextPeer ⟨[⟨"A", false⟩, ⟨"B", true⟩], 2 ^ 64 - 1⟩ = some r ∧
      r.peer = some 1 ∧ r.pool.backends = [⟨"A", false⟩, ⟨"B", true⟩]) ∧
    ∃ s2, ServerPool.getNextPeerTimes 5 ⟨[⟨"A", false⟩, ⟨"B", true⟩], 2 ^ 64 - 1⟩
      = some ([some 1, some 1, some 1, some 1, some 1], s2) :=
  let h := C3_single_alive ⟨[⟨"A", false⟩, ⟨"B", true⟩], 2 ^ 64 - 1⟩ 1 (by decide) (by decide)
  ⟨h.1, let ⟨s2, hrun, _⟩ := h.2 5; ⟨s2, hrun⟩⟩

/-- C4: on every pool the program holds (size `N ≥ 1`: `main` exits when no
backend is configured and registers one backend per configured URL) in which no
backend is alive, for every cursor value a `getNextPeer` call returns `nil` and
leaves every backend as it was; hence each of any `n` consecutive calls returns
`nil`. -/
theorem C4_none_alive (s : ServerPool) (hN : 1 ≤ s.backends.length)
    (hdead : s.noneAlive = true) :
    (∃ r, s.getNextPeer = some r ∧ r.peer = none ∧ r.pool.backends = s.backends) ∧
    ∀ n, ∃ s2, s.getNextPeerTimes n = some (List.replicate n none, s2) ∧
      s2.backends = s.backends :=
  ⟨getNextPeer_dead s hN hdead, fun n => getNextPeerTimes_dead n s hN hdead⟩

/-- C4 at the pool `[A(dead), B(dead)]`, cursor 7: three calls all return `nil`. -/
theorem C4_none_alive_witness :
    ∃ s2, ServerPool.getNextPeerTimes 3 ⟨[⟨"A", false⟩, ⟨"B", false⟩], 7⟩
      = some ([none, none, none], s2) :=
  let ⟨s2, hrun, _⟩ :=
    (C4_none_alive ⟨[⟨"A", false⟩, ⟨"B", false⟩], 7⟩ (by decide) (by decide)).2 3
  ⟨s2, hrun⟩

/-- C5: on a pool of size `N ≥ 1`, for every cursor value, `getNextPeer` returns;
with `start` the result of `nextIndex`, it returns the backend at
`(start + k) % N` for the least `k < N` whose backend is alive, after probing
exactly the offsets `0..k` (so at most `N` probes); it returns `nil` exactly when
no offset below `N` has an alive backend; a returned backend is a position of
the pool that is alive and was probed. -/
theorem C5_getNextPeer_first_alive (s : ServerPool) (hN : 1 ≤ s.backends.length) :
    ∃ start s1 r, s.nextIndex = some (start, s1) ∧ start < s.backends.length ∧
      s.getNextPeer = some r ∧
      r.probes.length ≤ s.backends.length ∧
      r.pool.backends = s.backends ∧
      (∀ k, k < s.backends.length →
        s.aliveAt ((start + k) % s.backends.length) = true →
        (∀ j, j < k → s.aliveAt ((start + j) % s.backends.length) = false) →
        r.peer = some ((start + k) % s.backends.length) ∧
        r.probes = (List.range (k + 1)).map fun j => (start + j) % s.backends.length) ∧
      (r.peer = none ↔
        ∀ k, k < s.backends.length → s.aliveAt ((start + k) % s.backends.length) = false) ∧
      (∀ idx, r.peer = some idx →
        idx < s.backends.length ∧ s.aliveAt idx = true ∧ idx ∈ r.probes) := by
  have hpos : 0 < s.backends.length := hN
  by_cases h : ∃ i, s.aliveAt i = true
  · obtain ⟨k, hk, ha, hdead⟩ :=
      exists_first_alive s (((s.current + 1) % 2 ^ 64) % s.backends.length) h
    refine ⟨_, _, _, nextIndex_eq s hpos, Nat.mod_lt _ hpos,
      getNextPeer_found s hpos k hk ha hdead, ?_, ?_, ?_, ?_, ?_⟩
    · simp only [List.length_map, List.length_range]; omega
    · by_cases h0 : k = 0 <;> simp [h0]
    · intro k2 _ ha2 hdead2
      have hkk : k2 = k := by
        rcases Nat.lt_trichotomy k2 k with hlt | heq | hgt
        · have := hdead k2 hlt; rw [ha2] at this; cases this
        · exact heq
        · have := hdead2 k hgt; rw [ha] at this; cases this
      subst hkk
      exact ⟨rfl, rfl⟩
    · constructor
      · intro hnone; cases hnone
      · intro hall; have := hall k hk; rw [ha] at this; cases this
    · intro idx hidx
      have hidx2 : (((s.current + 1) % 2 ^ 64) % s.backends.length + k) % s.backends.length
          = idx := by simpa using hidx
      subst hidx2
      refine ⟨Nat.mod_lt _ hpos, ha, ?_⟩
      exact List.mem_map.mpr ⟨k, List.mem_range.mpr (by omega), rfl⟩
  · have hall : ∀ i, s.aliveAt i = false := by
      intro i
      cases hv : s.aliveAt i with
      | false => rfl
      | true => exact absurd ⟨i, hv⟩ h
    refine ⟨_, _, _, nextIndex_eq s hpos, Nat.mod_lt _ hpos,
      getNextPeer_none s hpos (fun j _ => hall _), ?_, rfl, ?_, ?_, ?_⟩
    · simp
    · intro k _ ha2 _; rw [hall] at ha2; cases ha2
    · exact ⟨fun _ k _ => hall _, fun _ => rfl⟩
    · intro idx hidx; cases hidx

/-- C5 at the pool `[A(dead), B(dead), C(alive)]`, cursor 2: the scan starts at
position 0 and returns position 2 after three probes. -/
theorem C5_getNextPeer_first_alive_witness :
    ∃ r, ServerPool.getNextPeer ⟨[⟨"A", false⟩, ⟨"B", false⟩, ⟨"C", true⟩], 2⟩ = some r ∧
      r.peer = some 2 ∧ r.probes = [0, 1, 2] ∧ r.probes.length ≤ 3 :=
  let ⟨start, _, r, hstart, _, hrun, hlen, _, hfirst, _⟩ :=
    C5_getNextPeer_first_alive ⟨[⟨"A", false⟩, ⟨"B", false⟩, ⟨"C", true⟩], 2⟩ (by decide)
  have h0 : start = 0 := by
    have h : ServerPool.nextIndex ⟨[⟨"A", false⟩, ⟨"B", false⟩, ⟨"C", true⟩], 2⟩
        = some (0, ⟨[⟨"A", false⟩, ⟨"B", false⟩, ⟨"C", true⟩], 3⟩) := by decide
    rw [h] at hstart
    exact (congrArg Prod.fst (Option.some.inj hstart)).symm
  have hk := hfirst 2 (by decide) (by rw [h0]; decide)
    (fun j hj => by
      rw [h0]
      have hj2 : j = 0 ∨ j = 1 := by omega
      rcases hj2 with rfl | rfl <;> decide)
  ⟨r, hrun, by rw [hk.1, h0]; rfl, by rw [hk.2, h0]; decide, hlen⟩

/-! ## Claims about the request path -/

/-- C6: on a pool of size `N ≥ 1` with pairwise distinct URL strings and every
backend alive, for every cursor value, a fresh request whose forwards all fail
ends in the service-unavailable response within 12 control transfers, having
made exactly `min N 4` dispatches that selected a backend (so at most
`min N 4`).  And for every pool, every request and every sequence of
forwarding outcomes, the dispatch/retry process started at `loadBalance`
reaches a terminal point within 12 control transfers. -/
theorem C6_all_fail_exhausts (s : ServerPool) (fwd : Nat → Bool)
    (hN : 1 ≤ s.backends.length) (hnodup : (s.backends.map Backend.URL).Nodup)
    (halive : s.allAlive = true) (hfail : ∀ n, fwd n = false) :
    (run fwd 12 (Machine.start s)).phase = Phase.unavailable ∧
    selections (run fwd 12 (Machine.start s)).trace = min s.backends.length 4 ∧
    selections (run fwd 12 (Machine.start s)).trace ≤ min s.backends.length 4 ∧
    (∀ (s2 : ServerPool) (fwd2 : Nat → Bool) (r : Request) (tr : List Event) (n0 : Nat),
      (run fwd2 12 ⟨s2, Phase.dispatch r, tr, n0⟩).phase.isTerminal = true) := by
  have hfwd : fwd = allFail := funext hfail
  subst hfwd
  have hcount : (Machine.start s).pool.aliveCount = s.backends.length :=
    aliveCount_of_allAlive halive
  obtain ⟨hp5, hu5, hc5, hs5⟩ :=
    round_first (Machine.start s) rfl hnodup (by rw [hcount]; omega)
  have hnodup5 : ((run allFail 5 (Machine.start s)).pool.backends.map Backend.URL).Nodup := by
    rw [hu5]; exact hnodup
  have hlen5 : (run allFail 5 (Machine.start s)).pool.backends.length = s.backends.length := by
    have := congrArg List.length hu5
    simpa using this
  have hsel0 : selections (Machine.start s).trace = 0 := rfl
  obtain ⟨hpj, huj, hcj, hsj⟩ :=
    rounds_later (min (s.backends.length - 1) 3) (run allFail 5 (Machine.start s)) 1
      (by omega) hp5 hnodup5 (by omega)
  have hlenj : (run allFail (2 * min (s.backends.length - 1) 3)
      (run allFail 5 (Machine.start s))).pool.backends.length = s.backends.length := by
    have := congrArg List.length huj
    rw [List.length_map, List.length_map] at this
    rw [this, hlen5]
  have hsplit : run allFail 12 (Machine.start s)
      = run allFail (6 - 2 * min (s.backends.length - 1) 3)
          (step allFail (run allFail (2 * min (s.backends.length - 1) 3)
            (run allFail 5 (Machine.start s)))) := by
    rw [show (12 : Nat) = 5 + (2 * min (s.backends.length - 1) 3
        + (1 + (6 - 2 * min (s.backends.length - 1) 3))) by omega,
      run_add, run_add, run_add]
    rfl
  have hlast : (step allFail (run allFail (2 * min (s.backends.length - 1) 3)
        (run allFail 5 (Machine.start s)))).phase = Phase.unavailable ∧
      selections (step allFail (run allFail (2 * min (s.backends.length - 1) 3)
        (run allFail 5 (Machine.start s)))).trace = min s.backends.length 4 := by
    by_cases hbig : 4 ≤ s.backends.length
    · have hj : min (s.backends.length - 1) 3 = 3 := by omega
      rw [hj] at hpj hsj ⊢
      rw [step_dispatch_ceiling allFail _ _ hpj (by decide)]
      refine ⟨rfl, ?_⟩
      simp only [selections_append, hsj, hs5, hsel0]
      have h0 : selections [Event.unavailable] = 0 := rfl
      omega
    · have hj : min (s.backends.length - 1) 3 = s.backends.length - 1 := by omega
      rw [hj] at hpj hsj hcj hlenj ⊢
      obtain ⟨p, hstep⟩ := step_dispatch_dead allFail _ _ hpj
        (by show 1 + (s.backends.length - 1) ≤ 3; omega) (by omega) (by omega)
      rw [hstep]
      refine ⟨rfl, ?_⟩
      simp only [selections_append, hsj, hs5, hsel0]
      have h0 : selections [Event.unavailable] = 0 := rfl
      omega
  have hterm : (step allFail (run allFail (2 * min (s.backends.length - 1) 3)
      (run allFail 5 (Machine.start s)))).phase.isTerminal = true := by
    rw [hlast.1]; rfl
  rw [hsplit, run_terminal allFail _ _ hterm]
  refine ⟨hlast.1, hlast.2, Nat.le_of_eq hlast.2, ?_⟩
  intro s2 fwd2 r tr n0
  exact run_reaches_terminal fwd2 12 _ (budget_dispatch_le r)

/-- C6 at the pool `[a, b]`, cursor 0, every forward failing: the request ends
in service-unavailable after 2 selecting dispatches. -/
theorem C6_all_fail_exhausts_witness :
    (run allFail 12 (Machine.start
      ⟨[⟨"http://a", true⟩, ⟨"http://b", true⟩], 0⟩)).phase = Phase.unavailable ∧
    selections (run allFail 12 (Machine.start
      ⟨[⟨"http://a", true⟩, ⟨"http://b", true⟩], 0⟩)).trace = 2 :=
  let h := C6_all_fail_exhausts ⟨[⟨"http://a", true⟩, ⟨"http://b", true⟩], 0⟩ allFail
    (by decide) (by decide) (by decide) (fun _ => rfl)
  ⟨h.1, h.2.1⟩

/-- C7 as stated fails: on the pool `[a, b]` a fresh request is dispatched to
position 1 and the forwarding error occurs 3 times; the third local retry then
succeeds, the request is served, and no failover happened (no
`markBackendStatus` call, both backends still alive). -/
theorem C7_counterexample :
    run (failFirst 3) 5 (Machine.start ⟨[⟨"http://a", true⟩, ⟨"http://b", true⟩], 0⟩)
      = ⟨⟨[⟨"http://a", true⟩, ⟨"http://b", true⟩], 1⟩,
          Phase.served 1,
          [Event.selected 1, Event.forwarded 1, Event.slept, Event.forwarded 1, Event.slept,
            Event.forwarded 1, Event.slept, Event.forwarded 1],
          4⟩ ∧
    marks (run (failFirst 3) 5
      (Machine.start ⟨[⟨"http://a", true⟩, ⟨"http://b", true⟩], 0⟩)).trace = 0 ∧
    run (failFirst 3) 12 (Machine.start ⟨[⟨"http://a", true⟩, ⟨"http://b", true⟩], 0⟩)
      = run (failFirst 3) 5
          (Machine.start ⟨[⟨"http://a", true⟩, ⟨"http://b", true⟩], 0⟩) := by
  decide

/-- C7 (amended): a request is being forwarded to the backend at position `peer`
with `retries = 0`, and the forwarding error occurs 4 times in a row against
that backend (the first forward and its 3 local retries all fail).  Then the
handler makes exactly 3 local retries against that same backend and exactly one
failover: one `markBackendStatus(url, false)` call, after which `loadBalance`
runs again with `attempts` one higher.  After only 3 errors the request is
still being forwarded with `retries = 3` and nothing has been marked; and
whatever the forwarding outcomes, a request that starts with `retries = 0`
never makes more than 3 local retries. -/
theorem C7_three_retries_one_failover (fwd : Nat → Bool) (m : Machine) (peer : Nat)
    (r : Request) (b : Backend) (hphase : m.phase = Phase.forward peer r)
    (hb : m.pool.backends[peer]? = some b) (hret : getRetryFromContext r = 0)
    (hfail : ∀ j, j < 4 → fwd (m.forwards + j) = false) :
    (run fwd 4 m).phase = Phase.dispatch ⟨some (getAttemptsFromContext r + 1), some 3⟩ ∧
    (run fwd 4 m).trace
      = m.trace ++ [Event.forwarded peer, Event.slept, Event.forwarded peer, Event.slept,
          Event.forwarded peer, Event.slept, Event.forwarded peer,
          Event.marked b.URL false] ∧
    (run fwd 4 m).pool = m.pool.markBackendStatus b.URL false ∧
    marks (run fwd 4 m).trace = marks m.trace + 1 ∧
    localRetries (run fwd 4 m).trace = localRetries m.trace + 3 ∧
    (run fwd 3 m).phase = Phase.forward peer { r with retry := some 3 } ∧
    marks (run fwd 3 m).trace = marks m.trace ∧
    (∀ (fwd2 : Nat → Bool) (n : Nat),
      localRetries (run fwd2 n m).trace ≤ localRetries m.trace + 3) := by
  have h4 := run_four_failures fwd m peer r b hphase hb hret hfail
  have hf0 : fwd m.forwards = false := hfail 0 (by omega)
  have hf1 : fwd (m.forwards + 1) = false := hfail 1 (by omega)
  have hf2 : fwd (m.forwards + 1 + 1) = false := hfail 2 (by omega)
  have h1 := step_forward_retry fwd m peer r b hphase hb hf0 (by omega)
  rw [hret] at h1
  have h2 := step_forward_retry fwd
    { pool := m.pool, phase := Phase.forward peer { r with retry := some (0 + 1) },
      trace := m.trace ++ [Event.forwarded peer, Event.slept], forwards := m.forwards + 1 }
    peer { r with retry := some (0 + 1) } b rfl hb hf1 (by show 0 + 1 < 3; omega)
  rw [getRetry_set] at h2
  have h3 := step_forward_retry fwd
    { pool := m.pool, phase := Phase.forward peer { r with retry := some (0 + 1 + 1) },
      trace := m.trace ++ [Event.forwarded peer, Event.slept]
        ++ [Event.forwarded peer, Event.slept],
      forwards := m.forwards + 1 + 1 }
    peer { r with retry := some (0 + 1 + 1) } b rfl hb hf2 (by show 0 + 1 + 1 < 3; omega)
  rw [getRetry_set] at h3
  have hrun3 : run fwd 3 m
      = { pool := m.pool, phase := Phase.forward peer { r with retry := some 3 },
          trace := m.trace ++ [Event.forwarded peer, Event.slept]
            ++ [Event.forwarded peer, Event.slept] ++ [Event.forwarded peer, Event.slept],
          forwards := m.forwards + 1 + 1 + 1 } := by
    simp only [run]
    rw [h1, h2, h3]
  refine ⟨by rw [h4], by rw [h4], by rw [h4], ?_, ?_, by rw [hrun3], ?_, ?_⟩
  · rw [h4, marks_append]
    rfl
  · rw [h4, localRetries_append]
    rfl
  · rw [hrun3, marks_append, marks_append, marks_append]
    rfl
  · intro fwd2 n
    apply localRetries_le_of_retryBound
    apply run_retryBound
    simp only [retryBound, hphase, hret]
    omega

/-- C7 (amended) at the pool `[a, b]`, fresh request forwarded to position 1 with
every forward failing: three delays, one mark of `b`, then a new dispatch. -/
theorem C7_three_retries_one_failover_witness :
    (run allFail 4 ⟨⟨[⟨"http://a", true⟩, ⟨"http://b", true⟩], 1⟩,
        Phase.forward 1 ⟨none, none⟩, [Event.selected 1], 0⟩).trace
      = [Event.selected 1, Event.forwarded 1, Event.slept, Event.forwarded 1, Event.slept,
          Event.forwarded 1, Event.slept, Event.forwarded 1,
          Event.marked "http://b" false] ∧
    (run allFail 4 ⟨⟨[⟨"http://a", true⟩, ⟨"http://b", true⟩], 1⟩,
        Phase.forward 1 ⟨none, none⟩, [Event.selected 1], 0⟩).phase
      = Phase.dispatch ⟨some 1, some 3⟩ :=
  let h := C7_three_retries_one_failover allFail
    ⟨⟨[⟨"http://a", true⟩, ⟨"http://b", true⟩], 1⟩, Phase.forward 1 ⟨none, none⟩,
      [Event.selected 1], 0⟩
    1 ⟨none, none⟩ ⟨"http://b", true⟩ rfl rfl rfl (fun _ _ => rfl)
  ⟨h.2.1, h.1⟩

/-- C8 as stated fails when two backends share a URL string: on the pool
`[u, u]` the request is dispatched to position 1, its four forwards fail, and
the failover marks position 0; the backend that failed is still alive. -/
theorem C8_counterexample :
    run allFail 5 (Machine.start ⟨[⟨"http://u", true⟩, ⟨"http://u", true⟩], 0⟩)
      = ⟨⟨[⟨"http://u", false⟩, ⟨"http://u", true⟩], 1⟩,
          Phase.dispatch ⟨some 1, some 3⟩,
          [Event.selected 1, Event.forwarded 1, Event.slept, Event.forwarded 1, Event.slept,
            Event.forwarded 1, Event.slept, Event.forwarded 1,
            Event.marked "http://u" false],
          4⟩ ∧
    (run allFail 5
      (Machine.start ⟨[⟨"http://u", true⟩, ⟨"http://u", true⟩], 0⟩)).pool.aliveAt 1 = true := by
  decide

/-- C8 (amended): when a forward to the backend at position `peer` fails with
`retries ≥ 3`, and no earlier backend of the pool has the same URL string, then
afterwards the backend at `peer` is not alive, every other backend and the
cursor are unchanged, `markBackendStatus` was called once with `false`, the
request's attempts counter is one higher (its retry counter is kept), and
control is back at `loadBalance`. -/
theorem C8_failover_marks_dead (fwd : Nat → Bool) (m : Machine) (peer : Nat) (r : Request)
    (b : Backend) (hphase : m.phase = Phase.forward peer r)
    (hb : m.pool.backends[peer]? = some b) (hfail : fwd m.forwards = false)
    (hret : 3 ≤ getRetryFromContext r)
    (hfirst : ∀ j c, j < peer → m.pool.backends[j]? = some c → c.URL ≠ b.URL) :
    (step fwd m).pool.aliveAt peer = false ∧
    (∀ k, k ≠ peer → (step fwd m).pool.backends[k]? = m.pool.backends[k]?) ∧
    (step fwd m).pool.current = m.pool.current ∧
    (step fwd m).phase
      = Phase.dispatch { r with attempts := some (getAttemptsFromContext r + 1) } ∧
    getAttemptsFromContext { r with attempts := some (getAttemptsFromContext r + 1) }
      = getAttemptsFromContext r + 1 ∧
    getRetryFromContext { r with attempts := some (getAttemptsFromContext r + 1) }
      = getRetryFromContext r ∧
    (step fwd m).trace = m.trace ++ [Event.forwarded peer, Event.marked b.URL false] := by
  rw [step_forward_failover fwd m peer r b hphase hb hfail hret]
  have hmark := markBackendStatusList_first false m.pool.backends peer b hb hfirst
  refine ⟨?_, hmark.2, rfl, rfl, rfl, rfl, rfl⟩
  have hget : (m.pool.markBackendStatus b.URL false).backends[peer]?
      = some (b.setAlive false) := hmark.1
  rw [aliveAt_of_getElem? hget]
  rfl

/-- C8 (amended) at the pool `[a, b]`, request with `retries = 3` forwarded to
position 1: the failover leaves position 1 dead and re-dispatches with
`attempts = 1`. -/
theorem C8_failover_marks_dead_witness :
    (step allFail ⟨⟨[⟨"http://a", true⟩, ⟨"http://b", true⟩], 1⟩,
        Phase.forward 1 ⟨none, some 3⟩, [], 0⟩).pool.aliveAt 1 = false ∧
    (step allFail ⟨⟨[⟨"http://a", true⟩, ⟨"http://b", true⟩], 1⟩,
        Phase.forward 1 ⟨none, some 3⟩, [], 0⟩).phase = Phase.dispatch ⟨some 1, some 3⟩ :=
  let h := C8_failover_marks_dead allFail
    ⟨⟨[⟨"http://a", true⟩, ⟨"http://b", true⟩], 1⟩, Phase.forward 1 ⟨none, some 3⟩, [], 0⟩
    1 ⟨none, some 3⟩ ⟨"http://b", true⟩ rfl rfl rfl (by decide)
    (fun j c hj hc => by
      have hj0 : j = 0 := by omega
      subst hj0
      have hc2 : c = ⟨"http://a", true⟩ := by simpa using hc.symm
      subst hc2
      decide)
  ⟨h.1, h.2.2.2.1⟩

/-- C9: when a forward to the backend at position `peer` fails with
`retries < 3`, the handler forwards again to the same position with the retry
counter one higher; the attempts counter, the whole pool (every liveness flag
and the cursor) are unchanged, and no peer selection happens: the only actions
are the failed forward and the delay. -/
theorem C9_local_retry_frame (fwd : Nat → Bool) (m : Machine) (peer : Nat) (r : Request)
    (b : Backend) (hphase : m.phase = Phase.forward peer r)
    (hb : m.pool.backends[peer]? = some b) (hfail : fwd m.forwards = false)
    (hret : getRetryFromContext r < 3) :
    (step fwd m).phase
      = Phase.forward peer { r with retry := some (getRetryFromContext r + 1) } ∧
    getRetryFromContext { r with retry := some (getRetryFromContext r + 1) }
      = getRetryFromContext r + 1 ∧
    getAttemptsFromContext { r with retry := some (getRetryFromContext r + 1) }
      = getAttemptsFromContext r ∧
    (step fwd m).pool = m.pool ∧
    (step fwd m).trace = m.trace ++ [Event.forwarded peer, Event.slept] ∧
    selections (step fwd m).trace = selections m.trace ∧
    marks (step fwd m).trace = marks m.trace := by
  rw [step_forward_retry fwd m peer r b hphase hb hfail hret]
  refine ⟨rfl, rfl, rfl, rfl, rfl, ?_, ?_⟩
  · simp [selections, List.countP_append]
  · simp [marks, List.countP_append]

/-- C9 at the pool `[a, b]`, fresh request forwarded to position 1: the failed
forward is retried on position 1 with `retries = 1`, pool untouched. -/
theorem C9_local_retry_frame_witness :
    (step allFail ⟨⟨[⟨"http://a", true⟩, ⟨"http://b", true⟩], 1⟩,
        Phase.forward 1 ⟨none, none⟩, [Event.selected 1], 0⟩).phase
      = Phase.forward 1 ⟨none, some 1⟩ ∧
    (step allFail ⟨⟨[⟨"http://a", true⟩, ⟨"http://b", true⟩], 1⟩,
        Phase.forward 1 ⟨none, none⟩, [Event.selected 1], 0⟩).pool
      = ⟨[⟨"http://a", true⟩, ⟨"http://b", true⟩], 1⟩ :=
  let h := C9_local_retry_frame allFail
    ⟨⟨[⟨"http://a", true⟩, ⟨"http://b", true⟩], 1⟩, Phase.forward 1 ⟨none, none⟩,
      [Event.selected 1], 0⟩
    1 ⟨none, none⟩ ⟨"http://b", true⟩ rfl rfl rfl (by decide)
  ⟨h.1, h.2.2.2.1⟩

/-- C10: `loadBalance` answers service-unavailable exactly when `attempts > 3`
or `getNextPeer` returns `nil`; with `attempts > 3` it does so without touching
the pool (no `getNextPeer` call, cursor unchanged); with `attempts ≤ 3` and
some backend alive it hands the unchanged request to the alive backend that
`getNextPeer` returned. -/
theorem C10_dispatch_exhausted_iff (s : ServerPool) (r : Request) :
    ((∃ s2 ev, loadBalance s r = some (Phase.unavailable, s2, ev)) ↔
      (3 < getAttemptsFromContext r ∨
        ∃ res, s.getNextPeer = some res ∧ res.peer = none)) ∧
    (3 < getAttemptsFromContext r →
      loadBalance s r = some (Phase.unavailable, s, [Event.unavailable])) ∧
    (getAttemptsFromContext r ≤ 3 → (∃ i, s.aliveAt i = true) →
      ∃ res peer, s.getNextPeer = some res ∧ res.peer = some peer ∧
        s.aliveAt peer = true ∧
        loadBalance s r = some (Phase.forward peer r, res.pool, [Event.selected peer])) := by
  refine ⟨?_, ?_, ?_⟩
  · by_cases ha : 3 < getAttemptsFromContext r
    · simp [loadBalance, ha]
    · cases hg : s.getNextPeer with
      | none => simp [loadBalance, ha, hg]
      | some res =>
        cases hp : res.peer with
        | none => simp [loadBalance, ha, hg, hp]
        | some peer => simp [loadBalance, ha, hg, hp]
  · intro ha
    simp [loadBalance, ha]
  · intro ha ⟨i, hi⟩
    have hN : 0 < s.backends.length := Nat.lt_of_le_of_lt (Nat.zero_le i) (aliveAt_lt hi)
    obtain ⟨res, hres, _, hcase⟩ := getNextPeer_spec s hN
    rcases hcase with ⟨peer, hp, halive⟩ | ⟨_, hall⟩
    · have hna : ¬ 3 < getAttemptsFromContext r := by omega
      exact ⟨res, peer, hres, hp, halive, by simp [loadBalance, hna, hres, hp]⟩
    · rw [hall i] at hi; cases hi

/-! ## Claims about the cursor, `markBackendStatus` and `HealthCheck` -/

/-- C11: on a pool of size `N ≥ 1`, for every cursor value `c`, `nextIndex` does
not panic, leaves the cursor at `(c + 1) % 2 ^ 64`, keeps the backends, and
returns that new cursor value modulo `N`, which is a valid index below `N`. -/
theorem C11_nextIndex_in_range (s : ServerPool) (hN : 1 ≤ s.backends.length) :
    ∃ i s1, s.nextIndex = some (i, s1) ∧
      s1.current = (s.current + 1) % 2 ^ 64 ∧
      s1.backends = s.backends ∧
      i = s1.current % s.backends.length ∧
      i < s.backends.length ∧
      s1.current < 2 ^ 64 :=
  ⟨_, _, nextIndex_eq s hN, rfl, rfl, rfl, Nat.mod_lt _ hN, Nat.mod_lt _ (by decide)⟩

/-- C11 at a three-backend pool with the cursor at its maximum: the cursor wraps
to 0 and the index is 0. -/
theorem C11_nextIndex_in_range_witness :
    ∃ i s1, ServerPool.nextIndex
        ⟨[⟨"http://a", true⟩, ⟨"http://b", true⟩, ⟨"http://c", false⟩], 2 ^ 64 - 1⟩
          = some (i, s1) ∧ s1.current = 0 ∧ i = 0 ∧ i < 3 :=
  let ⟨i, s1, h, hc, _, hi, hlt, _⟩ := C11_nextIndex_in_range
    ⟨[⟨"http://a", true⟩, ⟨"http://b", true⟩, ⟨"http://c", false⟩], 2 ^ 64 - 1⟩ (by decide)
  have hc0 : s1.current = 0 := hc.trans (by decide)
  ⟨i, s1, h, hc0, by rw [hi, hc0]; rfl, hlt⟩

/-- C12: `markBackendStatus(u, v)` leaves the whole pool (flags, order, cursor)
unchanged when no backend has URL string `u`; when some backend has it, a
backend with URL string `u` has liveness `v` afterwards. -/
theorem C12_markBackendStatus_found_or_noop (s : ServerPool) (u : String) (v : Bool) :
    ((∀ b ∈ s.backends, b.URL ≠ u) → s.markBackendStatus u v = s) ∧
    ((∃ b ∈ s.backends, b.URL = u) →
      ∃ b2 ∈ (s.markBackendStatus u v).backends, b2.URL = u ∧ b2.isAlive = v) := by
  constructor
  · intro h
    simp only [ServerPool.markBackendStatus, markBackendStatusList_noop u v s.backends h]
  · intro h
    exact markBackendStatusList_exists u v s.backends h

/-- C13: one `HealthCheck` with reachability oracle `probe` makes one
`isBackendAlive` call per backend, in pool order; afterwards the backend at each
position keeps its URL and has liveness `probe url`; a failed probe at one
position does not stop later positions from being probed and updated; the
cursor and the order of the backends are unchanged. -/
theorem C13_healthCheck_probes_all (probe : String → Bool) (s : ServerPool) :
    (s.HealthCheckLogged probe).1 = s.HealthCheck probe ∧
    (s.HealthCheckLogged probe).1.current = s.current ∧
    (s.HealthCheckLogged probe).1.backends.map Backend.URL = s.backends.map Backend.URL ∧
    (s.HealthCheckLogged probe).2.map Prod.fst = s.backends.map Backend.URL ∧
    (s.HealthCheckLogged probe).2.length = s.backends.length ∧
    (∀ i b, s.backends[i]? = some b →
      (s.HealthCheckLogged probe).1.backends[i]? = some ⟨b.URL, probe b.URL⟩ ∧
      (s.HealthCheckLogged probe).1.aliveAt i = probe b.URL ∧
      (s.HealthCheckLogged probe).2[i]?
        = some (b.URL, if !probe b.URL then "down" else "up")) ∧
    (∀ i j b c, i < j → s.backends[i]? = some b → probe b.URL = false →
      s.backends[j]? = some c →
      (s.HealthCheckLogged probe).1.aliveAt j = probe c.URL ∧
      ((s.HealthCheckLogged probe).2[j]?).map Prod.fst = some c.URL) := by
  have hper : ∀ i b, s.backends[i]? = some b →
      (s.HealthCheckLogged probe).1.backends[i]? = some ⟨b.URL, probe b.URL⟩ ∧
      (s.HealthCheckLogged probe).1.aliveAt i = probe b.URL ∧
      (s.HealthCheckLogged probe).2[i]?
        = some (b.URL, if !probe b.URL then "down" else "up") := by
    intro i b hb
    have h1 : (s.HealthCheckLogged probe).1.backends[i]? = some ⟨b.URL, probe b.URL⟩ := by
      simp [ServerPool.HealthCheckLogged, healthCheckLoop_backends, List.getElem?_map, hb,
        Backend.setAlive]
    refine ⟨h1, ?_, ?_⟩
    · rw [aliveAt_of_getElem? h1]; rfl
    · simp [ServerPool.HealthCheckLogged, healthCheckLoop_records, List.getElem?_map, hb]
  refine ⟨?_, rfl, ?_, ?_, ?_, hper, ?_⟩
  · simp [ServerPool.HealthCheckLogged, ServerPool.HealthCheck, healthCheckLoop_backends]
  · simp [ServerPool.HealthCheckLogged, healthCheckLoop_backends, List.map_map, Function.comp,
      Backend.setAlive]
  · simp [ServerPool.HealthCheckLogged, healthCheckLoop_records, List.map_map, Function.comp]
  · simp [ServerPool.HealthCheckLogged, healthCheckLoop_records]
  · intro i j b c _ _ _ hc
    obtain ⟨_, h2, h3⟩ := hper j c hc
    exact ⟨h2, by rw [h3]; rfl⟩

/-- C14 as stated fails for `getNextPeer`: on the pool `[A(alive), B(dead)]` with
cursor 10 the call leaves the cursor at 0, the index of the returned backend,
although no wrap at `2 ^ 64` happened. -/
theorem C14_counterexample :
    (ServerPool.getNextPeer ⟨[⟨"A", true⟩, ⟨"B", false⟩], 10⟩).map (fun r => r.pool.current)
      = some 0 ∧
    ¬ ∃ r, ServerPool.getNextPeer ⟨[⟨"A", true⟩, ⟨"B", false⟩], 10⟩ = some r ∧
      10 < r.pool.current := by
  have h : ServerPool.getNextPeer ⟨[⟨"A", true⟩, ⟨"B", false⟩], 10⟩
      = some ⟨some 0, ⟨[⟨"A", true⟩, ⟨"B", false⟩], 0⟩, [1, 0]⟩ := by decide
  refine ⟨by rw [h]; rfl, ?_⟩
  rintro ⟨r, hr, hlt⟩
  rw [h] at hr
  cases hr
  exact absurd hlt (by decide)

/-- C14 (amended): on a pool of size `N ≥ 1` with cursor `c < 2 ^ 64 - 1`, a
`nextIndex` call leaves the cursor at `c + 1 > c`; a `getNextPeer` call leaves it
at `c + 1` when the backend at index `(c + 1) % N` is alive or no backend is
alive, and otherwise sets it to the index (below `N`) of the returned backend,
which is alive and differs from `(c + 1) % N`. -/
theorem C14_cursor_after_call (s : ServerPool) (hN : 1 ≤ s.backends.length)
    (hc : s.current < 2 ^ 64 - 1) :
    (∃ i s1, s.nextIndex = some (i, s1) ∧ s1.current = s.current + 1 ∧
      s.current < s1.current) ∧
    (∃ r, s.getNextPeer = some r ∧
      ((s.aliveAt ((s.current + 1) % s.backends.length) = true ∨
          ∀ i, s.aliveAt i = false) →
        r.pool.current = s.current + 1 ∧ s.current < r.pool.current) ∧
      (s.aliveAt ((s.current + 1) % s.backends.length) = false →
        (∃ i, s.aliveAt i = true) →
        ∃ idx, r.peer = some idx ∧ r.pool.current = idx ∧ idx < s.backends.length ∧
          s.aliveAt idx = true ∧ idx ≠ (s.current + 1) % s.backends.length)) := by
  have hmod : (s.current + 1) % 2 ^ 64 = s.current + 1 := Nat.mod_eq_of_lt (by omega)
  have hpos : 0 < s.backends.length := hN
  refine ⟨⟨_, _, nextIndex_eq s hpos, hmod, by rw [hmod]; exact Nat.lt_succ_self _⟩, ?_⟩
  by_cases hfirst : s.aliveAt ((s.current + 1) % s.backends.length) = true
  · have hf := getNextPeer_found s hpos 0 hpos
      (by rw [Nat.add_zero, Nat.mod_mod, hmod]; exact hfirst)
      (fun j hj => absurd hj (Nat.not_lt_zero j))
    refine ⟨_, hf, ?_, ?_⟩
    · intro _
      simp only [ne_eq, not_true_eq_false, if_false, hmod]
      exact ⟨trivial, Nat.lt_succ_self _⟩
    · intro hmiss
      rw [hfirst] at hmiss
      cases hmiss
  · have hmiss : s.aliveAt ((s.current + 1) % s.backends.length) = false := by
      simpa using hfirst
    by_cases hsome : ∃ i, s.aliveAt i = true
    · obtain ⟨r, idx, hr, hp, hcur, _, hlt, halive, hne⟩ :=
        getNextPeer_store s hpos (by rw [hmod]; exact hmiss) hsome
      refine ⟨r, hr, ?_, ?_⟩
      · rintro (h1 | h2)
        · rw [hmiss] at h1; cases h1
        · obtain ⟨i, hi⟩ := hsome
          rw [h2 i] at hi; cases hi
      · intro _ _
        exact ⟨idx, hp, hcur, hlt, halive, by rw [hmod] at hne; exact hne⟩
    · have hall : ∀ i, s.aliveAt i = false := by
        intro i
        cases hv : s.aliveAt i with
        | false => rfl
        | true => exact absurd ⟨i, hv⟩ hsome
      refine ⟨_, getNextPeer_none s hpos (fun j _ => hall _), ?_, ?_⟩
      · intro _
        simp only [hmod]
        exact ⟨trivial, Nat.lt_succ_self _⟩
      · intro _ hex
        exact absurd hex hsome

/-- C14 (amended) at the pool `[A(alive), B(dead)]`, cursor 10: `nextIndex` leaves
the cursor at 11, `getNextPeer` at 0, the index of the returned backend. -/
theorem C14_cursor_after_call_witness :
    (∃ i s1, ServerPool.nextIndex ⟨[⟨"A", true⟩, ⟨"B", false⟩], 10⟩ = some (i, s1) ∧
      s1.current = 11) ∧
    (∃ r, ServerPool.getNextPeer ⟨[⟨"A", true⟩, ⟨"B", false⟩], 10⟩ = some r ∧
      r.peer = some 0 ∧ r.pool.current = 0) :=
  let h := C14_cursor_after_call ⟨[⟨"A", true⟩, ⟨"B", false⟩], 10⟩ (by decide) (by decide)
  ⟨let ⟨i, s1, h1, h2, _⟩ := h.1; ⟨i, s1, h1, h2⟩,
   let ⟨r, hr, _, hstore⟩ := h.2
   let ⟨idx, hp, hcur, hlt, halive, _⟩ := hstore (by decide) ⟨0, by decide⟩
   have hidx : idx = 0 := by
     have h2 : idx = 0 ∨ idx = 1 := by
       have : idx < 2 := hlt
       omega
     rcases h2 with h0 | h1
     · exact h0
     · rw [h1] at halive; exact absurd halive (by decide)
   ⟨r, hr, by rw [hp, hidx], by rw [hcur, hidx]⟩⟩

/-- C17 as stated fails: on the pool `[A(alive), B(dead)]` with cursor 0 the
first call starts at index 1, finds A at index 0 and stores 0 in the cursor; the
next call then starts its scan at index 1 again (the dead B), not at the
known-live index 0. -/
theorem C17_counterexample :
    ServerPool.getNextPeer ⟨[⟨"A", true⟩, ⟨"B", false⟩], 0⟩
      = some ⟨some 0, ⟨[⟨"A", true⟩, ⟨"B", false⟩], 0⟩, [1, 0]⟩ ∧
    (ServerPool.getNextPeerTimes 1 ⟨[⟨"A", true⟩, ⟨"B", false⟩], 0⟩).map Prod.snd
      = some ⟨[⟨"A", true⟩, ⟨"B", false⟩], 0⟩ ∧
    (ServerPool.getNextPeer ⟨[⟨"A", true⟩, ⟨"B", false⟩], 0⟩).bind
        (fun r => (ServerPool.getNextPeer r.pool).map (fun r2 => r2.probes))
      = some [1, 0] := by
  decide

/-- C17 (amended): on a pool of size `N ≥ 1`, when a `getNextPeer` call returns a
backend at an index `idx` different from its initial index, it sets the cursor
to `idx` (backends unchanged), and the subsequent `getNextPeer` call starts its
scan at `(idx + 1) % N`, the index after the one just returned. -/
theorem C17_store_then_scan_after (s : ServerPool) (hN : 1 ≤ s.backends.length)
    (hlen : s.backends.length < 2 ^ 64) (r : PeerResult) (idx : Nat)
    (hr : s.getNextPeer = some r) (hp : r.peer = some idx)
    (hne : idx ≠ ((s.current + 1) % 2 ^ 64) % s.backends.length) :
    r.pool.current = idx ∧ r.pool.backends = s.backends ∧ s.aliveAt idx = true ∧
    (∃ s3, r.pool.nextIndex = some ((idx + 1) % s.backends.length, s3)) ∧
    (∃ r2, r.pool.getNextPeer = some r2 ∧
      r2.probes.head? = some ((idx + 1) % s.backends.length)) := by
  have hpos : 0 < s.backends.length := hN
  have hstore : r.pool.current = idx ∧ r.pool.backends = s.backends ∧
      s.aliveAt idx = true ∧ idx < s.backends.length := by
    by_cases hsome : ∃ i, s.aliveAt i = true
    · cases hfirst : s.aliveAt (((s.current + 1) % 2 ^ 64) % s.backends.length) with
      | true =>
        have hf := getNextPeer_found s hpos 0 hpos
          (by rw [Nat.add_zero, Nat.mod_mod]; exact hfirst)
          (fun j hj => absurd hj (Nat.not_lt_zero j))
        rw [hr] at hf
        have hr2 := Option.some.inj hf
        rw [hr2] at hp
        simp only [Nat.add_zero, Nat.mod_mod, Option.some.injEq] at hp
        exact absurd hp.symm hne
      | false =>
        obtain ⟨r1, idx1, hr1, hp1, hcur, hb, hlt, halive, _⟩ :=
          getNextPeer_store s hpos hfirst hsome
        rw [hr] at hr1
        have hrr := Option.some.inj hr1
        subst hrr
        rw [hp] at hp1
        have hii := Option.some.inj hp1
        subst hii
        exact ⟨hcur, hb, halive, hlt⟩
    · have hall : ∀ i, s.aliveAt i = false := by
        intro i
        cases hv : s.aliveAt i with
        | false => rfl
        | true => exact absurd ⟨i, hv⟩ hsome
      have hn := getNextPeer_none s hpos (fun j _ => hall _)
      rw [hr] at hn
      have hr2 := Option.some.inj hn
      rw [hr2] at hp
      cases hp
  obtain ⟨hcur, hb, halive, hlt⟩ := hstore
  have hpos2 : 0 < r.pool.backends.length := by rw [hb]; exact hpos
  have hmod : (r.pool.current + 1) % 2 ^ 64 = idx + 1 := by
    rw [hcur]; exact Nat.mod_eq_of_lt (by omega)
  refine ⟨hcur, hb, halive, ?_, ?_⟩
  · have h := nextIndex_eq r.pool hpos2
    rw [hmod, hb] at h
    exact ⟨_, h⟩
  · obtain ⟨r2, hr2, hhead⟩ := getNextPeer_probes_head r.pool hpos2
    rw [hmod, hb] at hhead
    exact ⟨r2, hr2, hhead⟩

/-- C17 (amended) at the pool `[A(alive), B(dead), C(alive)]`, cursor 0: the call
returns index 2 after missing index 1, stores 2, and the next scan starts at
index 0. -/
theorem C17_store_then_scan_after_witness :
    ∃ r2, ServerPool.getNextPeer ⟨[⟨"A", true⟩, ⟨"B", false⟩, ⟨"C", true⟩], 2⟩ = some r2 ∧
      r2.probes.head? = some 0 :=
  (C17_store_then_scan_after ⟨[⟨"A", true⟩, ⟨"B", false⟩, ⟨"C", true⟩], 0⟩
    (by decide) (by decide)
    ⟨some 2, ⟨[⟨"A", true⟩, ⟨"B", false⟩, ⟨"C", true⟩], 2⟩, [1, 2]⟩ 2
    (by decide) rfl (by decide)).2.2.2.2

/-- C18: `markBackendStatus(u, v)` keeps the cursor, the number and order of the
backends and every URL; a position whose backend differs afterwards is the
first position whose URL string equals `u`, and it carries liveness `v`; so at
most one position changes, every other backend (later ones with the same URL
string included) is kept, and without a match the pool is unchanged. -/
theorem C18_markBackendStatus_frame (s : ServerPool) (u : String) (v : Bool) :
    (s.markBackendStatus u v).current = s.current ∧
    (s.markBackendStatus u v).backends.map Backend.URL = s.backends.map Backend.URL ∧
    (s.markBackendStatus u v).backends.length = s.backends.length ∧
    (∀ i : Nat, (s.markBackendStatus u v).backends[i]? ≠ s.backends[i]? →
      ∃ b : Backend, s.backends[i]? = some b ∧ b.URL = u ∧
        (∀ (j : Nat) (c : Backend), j < i → s.backends[j]? = some c → c.URL ≠ u) ∧
        (s.markBackendStatus u v).backends[i]? = some (b.setAlive v)) ∧
    (∀ i j : Nat, (s.markBackendStatus u v).backends[i]? ≠ s.backends[i]? →
      (s.markBackendStatus u v).backends[j]? ≠ s.backends[j]? → i = j) ∧
    (∀ (i : Nat) (b : Backend), s.backends[i]? = some b → b.URL = u →
      (∀ (j : Nat) (c : Backend), j < i → s.backends[j]? = some c → c.URL ≠ u) →
      (s.markBackendStatus u v).backends[i]? = some (b.setAlive v) ∧
      ∀ k : Nat, k ≠ i → (s.markBackendStatus u v).backends[k]? = s.backends[k]?) ∧
    ((∀ b ∈ s.backends, b.URL ≠ u) → s.markBackendStatus u v = s) := by
  have hurls := markBackendStatusList_urls u v s.backends
  refine ⟨rfl, hurls, ?_, ?_, ?_, ?_, ?_⟩
  · have := congrArg List.length hurls
    simpa using this
  · intro i h
    exact markBackendStatusList_changed u v s.backends i h
  · intro i j hi hj
    obtain ⟨b, hb, hbu, hbfirst, _⟩ := markBackendStatusList_changed u v s.backends i hi
    obtain ⟨c, hc, hcu, hcfirst, _⟩ := markBackendStatusList_changed u v s.backends j hj
    rcases Nat.lt_trichotomy i j with hlt | heq | hgt
    · exact absurd hbu (hcfirst i b hlt hb)
    · exact heq
    · exact absurd hcu (hbfirst j c hgt hc)
  · intro i b hb hbu hfirst
    subst hbu
    exact markBackendStatusList_first v s.backends i b hb hfirst
  · intro h
    simp only [ServerPool.markBackendStatus, markBackendStatusList_noop u v s.backends h]

/-! ## Claims about the retry budget of a request -/

/-- C19: a failover keeps the retry counter.  For every pool and a fresh request
whose forwards all fail, the request ends within 12 control transfers, and its
actions are: nothing (empty pool, the handler panics), a bare 503 (no alive
backend), or one first selection with exactly 4 forwards (1 + 3 local retries)
and a dead-mark, then at most 3 further selections with exactly 1 forward and
one dead-mark each, then the 503.  So one request makes at most 7 forwards, at
most 4 dead-marks and at most 3 local retries. -/
theorem C19_retries_never_reset (s : ServerPool) (fwd : Nat → Bool)
    (hfail : ∀ n, fwd n = false) :
    (∀ (u : String) (peer : Nat) (p : ServerPool) (r : Request),
      3 ≤ getRetryFromContext r →
      ∃ r2, (errorHandler u peer p r).1 = Phase.dispatch r2 ∧
        getRetryFromContext r2 = getRetryFromContext r) ∧
    (run fwd 12 (Machine.start s)).phase.isTerminal = true ∧
    (((run fwd 12 (Machine.start s)).phase = Phase.panicked ∧
        (run fwd 12 (Machine.start s)).trace = [] ∧ s.backends.length = 0) ∨
      ((run fwd 12 (Machine.start s)).phase = Phase.unavailable ∧
        (run fwd 12 (Machine.start s)).trace = [Event.unavailable]) ∨
      (∃ (p1 : Nat) (u1 : String) (rest : List (Nat × String)), rest.length ≤ 3 ∧
        (run fwd 12 (Machine.start s)).phase = Phase.unavailable ∧
        (run fwd 12 (Machine.start s)).trace
          = firstRound p1 u1 ++ laterRounds rest ++ [Event.unavailable] ∧
        forwardings (run fwd 12 (Machine.start s)).trace = 4 + rest.length ∧
        marks (run fwd 12 (Machine.start s)).trace = 1 + rest.length)) ∧
    forwardings (run fwd 12 (Machine.start s)).trace ≤ 7 ∧
    marks (run fwd 12 (Machine.start s)).trace ≤ 4 ∧
    localRetries (run fwd 12 (Machine.start s)).trace ≤ 3 := by
  have hfwd : fwd = allFail := funext hfail
  subst hfwd
  have hkeep : ∀ (u : String) (peer : Nat) (p : ServerPool) (r : Request),
      3 ≤ getRetryFromContext r →
      ∃ r2, (errorHandler u peer p r).1 = Phase.dispatch r2 ∧
        getRetryFromContext r2 = getRetryFromContext r := by
    intro u peer p r hret
    have hnot : ¬ getRetryFromContext r < 3 := by omega
    exact ⟨{ r with attempts := some (getAttemptsFromContext r + 1) },
      by simp [errorHandler, hnot], rfl⟩
  have hshape :
      ((run allFail 12 (Machine.start s)).phase = Phase.panicked ∧
        (run allFail 12 (Machine.start s)).trace = [] ∧ s.backends.length = 0) ∨
      ((run allFail 12 (Machine.start s)).phase = Phase.unavailable ∧
        (run allFail 12 (Machine.start s)).trace = [Event.unavailable]) ∨
      (∃ (p1 : Nat) (u1 : String) (rest : List (Nat × String)), rest.length ≤ 3 ∧
        (run allFail 12 (Machine.start s)).phase = Phase.unavailable ∧
        (run allFail 12 (Machine.start s)).trace
          = firstRound p1 u1 ++ laterRounds rest ++ [Event.unavailable] ∧
        forwardings (run allFail 12 (Machine.start s)).trace = 4 + rest.length ∧
        marks (run allFail 12 (Machine.start s)).trace = 1 + rest.length) := by
    rcases Nat.eq_zero_or_pos s.backends.length with h0 | hpos
    · have hnext : s.nextIndex = none := by simp [ServerPool.nextIndex, h0]
      have hlb : loadBalance s ⟨none, none⟩ = none := by
        simp [loadBalance, getAttemptsFromContext, ServerPool.getNextPeer, hnext]
      have hstep : step allFail (Machine.start s)
          = { pool := s, phase := Phase.panicked, trace := [], forwards := 0 } := by
        simp [step, Machine.start, hlb]
      have hrun : run allFail 12 (Machine.start s)
          = { pool := s, phase := Phase.panicked, trace := [], forwards := 0 } := by
        rw [show (12 : Nat) = 11 + 1 from rfl, run, hstep]
        exact run_terminal allFail _ _ rfl
      rw [hrun]
      exact Or.inl ⟨rfl, rfl, h0⟩
    · rcases step_dispatch_cases allFail (Machine.start s) ⟨none, none⟩ rfl (by decide) hpos
        with ⟨p, _, hstep⟩ | ⟨idx, b, p, hback, hget, _, hstep⟩
      · have hrun : run allFail 12 (Machine.start s)
            = { pool := p, phase := Phase.unavailable, trace := [Event.unavailable],
                forwards := 0 } := by
          rw [show (12 : Nat) = 11 + 1 from rfl, run, hstep]
          exact run_terminal allFail _ _ rfl
        rw [hrun]
        exact Or.inr (Or.inl ⟨rfl, rfl⟩)
      · have hget2 : p.backends[idx]? = some b := by rw [hback]; exact hget
        have h4 : run allFail 4
            { pool := p, phase := Phase.forward idx ⟨none, none⟩,
              trace := [Event.selected idx], forwards := 0 }
            = { pool := p.markBackendStatus b.URL false,
                phase := Phase.dispatch ⟨some 1, some 3⟩,
                trace := firstRound idx b.URL,
                forwards := 4 } :=
          run_four_failures allFail
            { pool := p, phase := Phase.forward idx ⟨none, none⟩,
              trace := [Event.selected idx], forwards := 0 }
            idx ⟨none, none⟩ b rfl hget2 rfl (fun _ _ => rfl)
        obtain ⟨rest, hlen, hph, htr⟩ := tail_rounds 3
          { pool := p.markBackendStatus b.URL false,
            phase := Phase.dispatch ⟨some 1, some 3⟩,
            trace := firstRound idx b.URL,
            forwards := 4 }
          1 rfl rfl (by rw [markBackendStatus_length, hback]; exact hpos)
        have hrun : run allFail 12 (Machine.start s)
            = run allFail (2 * 3 + 1)
                { pool := p.markBackendStatus b.URL false,
                  phase := Phase.dispatch ⟨some 1, some 3⟩,
                  trace := firstRound idx b.URL,
                  forwards := 4 } := by
          rw [show (12 : Nat) = 1 + (4 + (2 * 3 + 1)) from rfl, run_add, run_add]
          have h1 : run allFail 1 (Machine.start s)
              = { pool := p, phase := Phase.forward idx ⟨none, none⟩,
                  trace := [Event.selected idx], forwards := 0 } := by
            show step allFail (Machine.start s) = _
            rw [hstep]
            rfl
          rw [h1, h4]
        rw [hrun]
        refine Or.inr (Or.inr ⟨idx, b.URL, rest, hlen, hph, htr, ?_, ?_⟩)
        · rw [htr, forwardings_append, forwardings_append, forwardings_laterRounds]
          rfl
        · rw [htr, marks_append, marks_append, marks_laterRounds]
          rfl
  refine ⟨hkeep, ?_, hshape, ?_, ?_, ?_⟩
  · rcases hshape with ⟨h, _, _⟩ | ⟨h, _⟩ | ⟨_, _, _, _, h, _⟩ <;> rw [h] <;> rfl
  · rcases hshape with ⟨_, h, _⟩ | ⟨_, h⟩ | ⟨_, _, rest, hlen, _, _, h, _⟩
    · rw [h]; exact Nat.zero_le _
    · rw [h]; exact Nat.zero_le _
    · rw [h]; omega
  · rcases hshape with ⟨_, h, _⟩ | ⟨_, h⟩ | ⟨_, _, rest, hlen, _, _, _, h⟩
    · rw [h]; exact Nat.zero_le _
    · rw [h]; exact Nat.zero_le _
    · rw [h]; omega
  · rcases hshape with ⟨_, h, _⟩ | ⟨_, h⟩ | ⟨_, _, rest, hlen, _, h, _, _⟩
    · rw [h]; exact Nat.zero_le _
    · rw [h]; exact Nat.zero_le _
    · rw [h, localRetries_append, localRetries_append, localRetries_laterRounds]
      exact Nat.le_refl 3

/-- C19 at a five-backend pool, all alive, cursor 7, every forward failing: four
forwards to the first selected backend, one to each of the next three, four
dead-marks. -/
theorem C19_retries_never_reset_witness :
    forwardings (run allFail 12 (Machine.start
      ⟨[⟨"http://a", true⟩, ⟨"http://b", true⟩, ⟨"http://c", true⟩, ⟨"http://d", true⟩,
        ⟨"http://e", true⟩], 7⟩)).trace ≤ 7 ∧
    marks (run allFail 12 (Machine.start
      ⟨[⟨"http://a", true⟩, ⟨"http://b", true⟩, ⟨"http://c", true⟩, ⟨"http://d", true⟩,
        ⟨"http://e", true⟩], 7⟩)).trace ≤ 4 :=
  let h := C19_retries_never_reset
    ⟨[⟨"http://a", true⟩, ⟨"http://b", true⟩, ⟨"http://c", true⟩, ⟨"http://d", true⟩,
      ⟨"http://e", true⟩], 7⟩ allFail (fun _ => rfl)
  ⟨h.2.2.2.1, h.2.2.2.2.1⟩

/-! ## Claims about fairness -/

/-- C15: on a pool of size `N ≥ 1` with at least one alive backend and fixed
liveness: (a) whatever the cursor, a `getNextPeer` call returns an alive
backend and leaves the cursor congruent to its index modulo `N`; (b) a further
call whose increment does not wrap returns the next alive backend in circular
order after the one just returned; (c) when none of them wraps, as many
consecutive calls as there are alive backends return every alive backend
exactly once. -/
theorem C15_even_distribution (s : ServerPool) (hN : 1 ≤ s.backends.length)
    (hk : 1 ≤ s.aliveCount) :
    (∃ r idx, s.getNextPeer = some r ∧ r.peer = some idx ∧ s.aliveAt idx = true ∧
      r.pool.current % s.backends.length = idx ∧ r.pool.backends = s.backends) ∧
    (∀ (r : PeerResult) (idx : Nat), s.getNextPeer = some r → r.peer = some idx →
      r.pool.current + 1 < 2 ^ 64 →
      ∃ r2 d, r.pool.getNextPeer = some r2 ∧ 1 ≤ d ∧ d ≤ s.backends.length ∧
        r2.peer = some ((idx + d) % s.backends.length) ∧
        s.aliveAt ((idx + d) % s.backends.length) = true ∧
        (∀ e, 1 ≤ e → e < d → s.aliveAt ((idx + e) % s.backends.length) = false) ∧
        r2.pool.current % s.backends.length = (idx + d) % s.backends.length) ∧
    (s.noWrapTimes s.aliveCount = true →
      ∃ (idxs : List Nat) (s2 : ServerPool),
        s.getNextPeerTimes s.aliveCount = some (idxs.map some, s2) ∧
        idxs.length = s.aliveCount ∧ idxs.Nodup ∧
        (∀ i, i ∈ idxs ↔ s.aliveAt i = true) ∧ s2.backends = s.backends) := by
  have hpos : 0 < s.backends.length := hN
  have hsome := exists_aliveAt_of_aliveCount_pos (show 0 < s.aliveCount from hk)
  obtain ⟨r, idx, hr, hp, halive, hlt, hcur, hb⟩ := getNextPeer_lands s hpos hsome
  refine ⟨⟨r, idx, hr, hp, halive, hcur, hb⟩, ?_, getNextPeerTimes_covers s hpos hk⟩
  intro r1 idx1 hr1 hp1 hnw
  rw [hr] at hr1
  have hrr := Option.some.inj hr1
  subst hrr
  rw [hp] at hp1
  have hii := Option.some.inj hp1
  subst hii
  have hpos2 : 0 < r.pool.backends.length := by rw [hb]; exact hpos
  have hsome2 : ∃ i, r.pool.aliveAt i = true := by
    obtain ⟨i, hi⟩ := hsome
    exact ⟨i, by rw [aliveAt_congr hb]; exact hi⟩
  obtain ⟨r2, Q, hr2, hp2, hnext, hcur2, _⟩ :=
    getNextPeer_next r.pool hpos2 hsome2 idx
      (by rw [hb, hcur, Nat.mod_eq_of_lt hlt]) hnw
  have hnext2 := nextAliveAfter_congr hb hnext
  rw [hb] at hp2 hcur2
  obtain ⟨hlt2, hle2, halive2, hdead2⟩ := hnext2
  have hQ : idx + (Q - idx) = Q := by omega
  refine ⟨r2, Q - idx, hr2, by omega, by omega, by rw [hQ]; exact hp2,
    by rw [hQ]; exact halive2, ?_, by rw [hQ]; exact hcur2⟩
  intro e he hed
  exact hdead2 (idx + e) (by omega) (by omega)

/-- C15 at the pool `[A(alive), B(dead), C(alive), D(dead)]`, cursor 0: two
consecutive calls return the two alive positions, each once. -/
theorem C15_even_distribution_witness :
    ∃ (idxs : List Nat) (s2 : ServerPool),
      ServerPool.getNextPeerTimes 2
          ⟨[⟨"A", true⟩, ⟨"B", false⟩, ⟨"C", true⟩, ⟨"D", false⟩], 0⟩
        = some (idxs.map some, s2) ∧
      idxs.Nodup ∧ (0 ∈ idxs) ∧ (2 ∈ idxs) :=
  let h := C15_even_distribution
    ⟨[⟨"A", true⟩, ⟨"B", false⟩, ⟨"C", true⟩, ⟨"D", false⟩], 0⟩ (by decide) (by decide)
  let ⟨idxs, s2, hrun, _, hnodup, hmem, _⟩ := h.2.2 (by decide)
  ⟨idxs, s2, hrun, hnodup, (hmem 0).mpr (by decide), (hmem 2).mpr (by decide)⟩

end LoadBalancer
